import Mathlib

/-!
Verification of the cluster-topology codec (`src/cluster2/topo.go`).

The Go code converts between an in-memory `Topo` (a slice of `Node`) and the
wire representation of the `CLUSTER SLOTS` reply.  We embed the code shallowly:

* `Node` / `Topo` mirror the Go structs; `uint16` slot bounds become `Nat`
  with explicit `% 65536` arithmetic where the Go code can wrap.
* The wire format is modelled structurally (`WireSlotSet`): the underlying
  RESP byte serialization lives in the external `resp` package, which is not
  part of this repository; a slot-set entry is two integers and a list of
  node entries, each node entry a list of strings, exactly the shape the Go
  code reads and writes through `resp.Any`.
* Go maps (`map[string]Node`, `map[[2]uint16]topoSlotSet`) have randomized
  iteration order; we model them as association lists in first-insertion
  order, a deterministic representative of the possible iteration orders.
* `sort.Slice` is modelled by `List.insertionSort` with the relation
  `le a b := ¬ less b a`.  For slices shorter than 12 elements Go's
  `sort.Slice` literally performs this insertion sort (stable from the left
  with respect to `le`), so on the small concrete inputs used below the model
  computes exactly what the Go code computes, and for a comparator that is a
  strict weak ordering any sorted permutation agrees with it up to ties.
* `net.SplitHostPort` is modelled by splitting at the last colon; the Go
  function agrees with this on addresses that contain exactly one colon and
  no brackets (its error, which the Go code ignores, yields "","" — modelled
  by the no-colon case).
-/

namespace RadixCluster

/-- `cluster.Node` from `topo.go`: one cluster member.  `Slots` holds
half-open ranges (start inclusive, end exclusive) as pairs of `uint16`
values, modelled as `Nat`. -/
structure Node where
  Addr : String
  ID : String
  Slots : List (Nat × Nat)
  SlaveOfAddr : String
  SlaveOfID : String
deriving DecidableEq

/-- `cluster.Topo`: a slice of nodes. -/
abbrev Topo := List Node

/-- `uint16` truncation. -/
def u16 (n : Nat) : Nat := n % 65536

/-- Split a character list at its last colon (`none` when there is no
colon). -/
def splitLastColon : List Char → Option (List Char × List Char)
  | [] => none
  | c :: rest =>
    match splitLastColon rest with
    | some (h, p) => some (c :: h, p)
    | none => if c = ':' then some ([], rest) else none

/-- Model of `net.SplitHostPort` as used by `topoSlotSet.MarshalRESP` (which
ignores the error): split at the last colon; an address without a colon
yields `("", "")` like the ignored-error path in Go. -/
def splitHostPort (s : String) : String × String :=
  match splitLastColon s.data with
  | some (h, p) => (String.mk h, String.mk p)
  | none => ("", "")

/-- One slot-set entry on the wire: inclusive start, inclusive end, and the
node entries (each a list of strings: host, port, optional id). -/
structure WireSlotSet where
  start : Nat
  stop : Nat
  nodes : List (List String)
deriving DecidableEq

/-- The wire value of a `CLUSTER SLOTS` reply: the outer array.  The array
header count is the list length. -/
abbrev Wire := List WireSlotSet

/-- Decode errors.  `malformedNode strs` models
`fmt.Errorf("malformed node array: %#v", nodeStrs)`: it carries the
offending raw node entry. -/
inductive DecodeErr where
  | malformedNode (strs : List String)
deriving DecidableEq

/-- Decode one node entry of a slot-set entry
(`topoSlotSet.UnmarshalRESP`, loop body): a node entry needs at least a
host and a port; the optional third element is the id.  `master` is the
already-decoded first entry of this slot set, if any. -/
def decodeNodeStrs (slots : Nat × Nat) (master : Option Node) (strs : List String) :
    Except DecodeErr Node :=
  match strs with
  | ip :: port :: rest =>
    let id := rest.headD ""
    let base : Node :=
      { Addr := ip ++ ":" ++ port, ID := id, Slots := [slots]
        SlaveOfAddr := "", SlaveOfID := "" }
    match master with
    | none => .ok base
    | some m => .ok { base with SlaveOfAddr := m.Addr, SlaveOfID := m.ID }
  | _ => .error (.malformedNode strs)

/-- Decode the node entries of one slot-set entry in order, threading the
master (the first entry) through, as the Go loop does with `masterNode`. -/
def decodeSlotSetNodes (slots : Nat × Nat) :
    Option Node → List (List String) → Except DecodeErr (List Node)
  | _, [] => .ok []
  | master, strs :: rest => do
    let n ← decodeNodeStrs slots master strs
    let tl ← decodeSlotSetNodes slots (some (master.getD n)) rest
    .ok (n :: tl)

/-- `topoSlotSet.UnmarshalRESP`: read the two inclusive bounds (uint16),
increment the end (uint16 wrap-around) to make the range half-open, then
decode the node entries. -/
def decodeSlotSet (w : WireSlotSet) : Except DecodeErr (List Node) :=
  decodeSlotSetNodes (u16 w.start, u16 (w.stop + 1)) none w.nodes

/-- Decode all slot-set entries (`Topo.UnmarshalRESP`, first loop),
concatenating their provisional nodes in wire order. -/
def decodeSlotSets : Wire → Except DecodeErr (List Node)
  | [] => .ok []
  | w :: ws => do
    let ns ← decodeSlotSet w
    let rest ← decodeSlotSets ws
    .ok (ns ++ rest)

/-- One step of the merge pass over `nodeAddrM`: a provisional node with a
known address appends its slots to the existing entry, a new address is
inserted.  (The Go map is modelled as an association list in first-insertion
order.) -/
def updateMerge (acc : List Node) (n : Node) : List Node :=
  if acc.any (fun e => e.Addr = n.Addr) then
    acc.map (fun e => if e.Addr = n.Addr then { e with Slots := e.Slots ++ n.Slots } else e)
  else acc ++ [n]

/-- The merge pass of `Topo.UnmarshalRESP` (second loop): group provisional
nodes by address. -/
def mergeNodes (prov : List Node) : List Node := prov.foldl updateMerge []

/-- The slot comparator of `Topo.sort`, as the non-strict relation used by
the sort model: `le s t := ¬ (t.1 < s.1)`. -/
def slotLe (s t : Nat × Nat) : Prop := s.1 ≤ t.1

instance : DecidableRel slotLe := fun s t => inferInstanceAs (Decidable (s.1 ≤ t.1))

/-- Sorting one node's slot list by range start (first half of `Topo.sort`). -/
def sortSlots (l : List (Nat × Nat)) : List (Nat × Nat) := l.insertionSort slotLe

/-- Apply the in-place slot sorting of `Topo.sort` to one node. -/
def sortNodeSlots (n : Node) : Node := { n with Slots := sortSlots n.Slots }

/-- The node comparator of `Topo.sort` (`less`).  `Slots[0]` on an empty
slot list panics in Go; `headD (0,0)` stands in for that undefined case
(claims about the sort carry nonempty-slots hypotheses). -/
def nodeLess (a b : Node) : Bool :=
  let sa := a.Slots.headD (0, 0)
  let sb := b.Slots.headD (0, 0)
  if sa ≠ sb then decide (sa.1 < sb.1) else decide (a.SlaveOfAddr = "")

/-- The non-strict relation the sort model uses: `le a b := ¬ less b a`. -/
def nodeLe (a b : Node) : Prop := nodeLess b a = false

instance : DecidableRel nodeLe := fun a b => inferInstanceAs (Decidable (nodeLess b a = false))

/-- `Topo.sort`: sort each node's slot list by start, then sort the nodes. -/
def topoSort (tt : Topo) : Topo := (tt.map sortNodeSlots).insertionSort nodeLe

/-- `Topo.UnmarshalRESP` on receiver `tt`: parse all slot sets, merge by
address, append the merged nodes to the receiver, sort.  The result pair is
(returned error, receiver state after the call). -/
def unmarshalTopoState (tt : Topo) (w : Wire) : Except DecodeErr Unit × Topo :=
  match decodeSlotSets w with
  | .error e => (.error e, tt)
  | .ok prov => (.ok (), topoSort (tt ++ mergeNodes prov))

/-- `Topo.UnmarshalRESP` as a function from receiver and wire to the decoded
topology (error: receiver untouched, no topology returned). -/
def unmarshalTopo (tt : Topo) (w : Wire) : Except DecodeErr Topo :=
  match decodeSlotSets w with
  | .error e => .error e
  | .ok prov => .ok (topoSort (tt ++ mergeNodes prov))

/-- Decode from a fresh (empty) receiver. -/
def decodeTopo (w : Wire) : Except DecodeErr Topo := unmarshalTopo [] w

/-- One step of bucket building in `Topo.MarshalRESP`: append node `n` to
the bucket of range `r` (the Go `map[[2]uint16]topoSlotSet` modelled as an
association list in first-insertion order). -/
def addToBuckets (bs : List ((Nat × Nat) × List Node)) (r : Nat × Nat) (n : Node) :
    List ((Nat × Nat) × List Node) :=
  if bs.any (fun b => b.1 = r) then
    bs.map (fun b => if b.1 = r then (b.1, b.2 ++ [n]) else b)
  else bs ++ [(r, [n])]

/-- The bucket step of `Topo.MarshalRESP` for one node: append it to the
bucket of every range it owns. -/
def bucketStep (bs : List ((Nat × Nat) × List Node)) (n : Node) :
    List ((Nat × Nat) × List Node) :=
  n.Slots.foldl (fun bs' r => addToBuckets bs' r n) bs

/-- Bucket building of `Topo.MarshalRESP`: for every node, for every range
it owns, append it to that range's bucket. -/
def buckets (tt : Topo) : List ((Nat × Nat) × List Node) := tt.foldl bucketStep []

/-- The bucket comparator of `Topo.MarshalRESP` as the non-strict relation:
`le x y := ¬ (y.slots[0] < x.slots[0])`. -/
def bucketLe (x y : (Nat × Nat) × List Node) : Prop := x.1.1 ≤ y.1.1

instance : DecidableRel bucketLe := fun x y => inferInstanceAs (Decidable (x.1.1 ≤ y.1.1))

/-- `sort.Slice(allTSS, ...)`: order the buckets by range start. -/
def sortBuckets (bs : List ((Nat × Nat) × List Node)) : List ((Nat × Nat) × List Node) :=
  bs.insertionSort bucketLe

/-- One node entry as `topoSlotSet.MarshalRESP` writes it: host and port
split from the address, then the id only when it is non-empty. -/
def nodeWireEntry (n : Node) : List String :=
  [(splitHostPort n.Addr).1, (splitHostPort n.Addr).2] ++ (if n.ID = "" then [] else [n.ID])

/-- `topoSlotSet.MarshalRESP`: emit inclusive bounds (the exclusive end
minus one, with uint16 wrap-around) and one node entry per bucket member. -/
def encodeSlotSet (b : (Nat × Nat) × List Node) : WireSlotSet :=
  { start := b.1.1
    stop := u16 (b.1.2 + 65535)
    nodes := b.2.map nodeWireEntry }

/-- `Topo.MarshalRESP`: the slot-set entries written after the array
header. -/
def encodeTopo (tt : Topo) : Wire := (sortBuckets (buckets tt)).map encodeSlotSet

/-- `Topo.MarshalRESP`: the count written in the outer array header. -/
def encodeHeaderN (tt : Topo) : Nat := (sortBuckets (buckets tt)).length

/-! ### General facts about the sort model -/

theorem u16_eq_of_lt {n : Nat} (h : n < 65536) : u16 n = n := Nat.mod_eq_of_lt h

/-- The uint16 decrement done by encode and the uint16 increment done by
decode cancel for every representable exclusive end, including `0` (where
both wrap). -/
theorem u16_dec_inc {e : Nat} (he : e < 65536) : u16 (u16 (e + 65535) + 1) = e := by
  unfold u16
  omega

/-- Inserting into a list sorted under a monotone `Nat` key keeps it sorted
under the key, for an arbitrary decidable relation whose truth and falsity
both bound the key. -/
theorem sorted_key_orderedInsert {α : Type} (r : α → α → Prop) [DecidableRel r] (f : α → Nat)
    (h1 : ∀ a b, r a b → f a ≤ f b) (h2 : ∀ a b, ¬ r a b → f b ≤ f a)
    (a : α) (l : List α) (hl : l.Sorted (fun x y => f x ≤ f y)) :
    (l.orderedInsert r a).Sorted (fun x y => f x ≤ f y) := by
  induction l with
  | nil => simp
  | cons b l ih =>
    rcases List.sorted_cons.mp hl with ⟨hb, hl'⟩
    rw [List.orderedInsert]
    by_cases h : r a b
    · rw [if_pos h]
      refine List.sorted_cons.mpr ⟨?_, hl⟩
      intro c hc
      rcases List.mem_cons.mp hc with rfl | hc
      · exact h1 _ _ h
      · exact (h1 _ _ h).trans (hb c hc)
    · rw [if_neg h]
      refine List.sorted_cons.mpr ⟨?_, ih hl'⟩
      intro c hc
      rcases (List.mem_orderedInsert r).mp hc with rfl | hc
      · exact h2 _ _ h
      · exact hb c hc

/-- The insertion-sort model always produces a list whose `Nat` key is
nondecreasing, even when the relation is not a total order. -/
theorem sorted_key_insertionSort {α : Type} (r : α → α → Prop) [DecidableRel r] (f : α → Nat)
    (h1 : ∀ a b, r a b → f a ≤ f b) (h2 : ∀ a b, ¬ r a b → f b ≤ f a)
    (l : List α) : (l.insertionSort r).Sorted (fun x y => f x ≤ f y) := by
  induction l with
  | nil => simp
  | cons a l ih =>
    rw [List.insertionSort]
    exact sorted_key_orderedInsert r f h1 h2 a _ ih

/-- Ordered insertion of a fresh element into a sorted duplicate-free list
is sorted, provided the relation is total and transitive on the elements at
hand. -/
theorem sorted_orderedInsert_of {α : Type} (r : α → α → Prop) [DecidableRel r] (a : α)
    (l : List α) (ha : a ∉ l) (hnd : l.Nodup) (hs : l.Sorted r)
    (htot : ∀ b ∈ l, r a b ∨ r b a)
    (htrans : ∀ b ∈ l, ∀ c ∈ l, b ≠ c → r a b → r b c → r a c) :
    (l.orderedInsert r a).Sorted r := by
  induction l with
  | nil => simp
  | cons b l ih =>
    rcases List.sorted_cons.mp hs with ⟨hb, hl'⟩
    rcases List.nodup_cons.mp hnd with ⟨hbl, hnd'⟩
    have hab : a ≠ b := fun h => ha (h ▸ List.mem_cons_self b l)
    rw [List.orderedInsert]
    by_cases h : r a b
    · rw [if_pos h]
      refine List.sorted_cons.mpr ⟨?_, hs⟩
      intro c hc
      rcases List.mem_cons.mp hc with rfl | hc
      · exact h
      · exact htrans b (List.mem_cons_self b l) c (List.mem_cons_of_mem b hc)
          (fun hbc => hbl (hbc ▸ hc)) h (hb c hc)
    · rw [if_neg h]
      refine List.sorted_cons.mpr ⟨?_, ?_⟩
      · intro c hc
        rcases (List.mem_orderedInsert r).mp hc with rfl | hc
        · exact (htot b (List.mem_cons_self b l)).resolve_left h
        · exact hb c hc
      · exact ih (fun h' => ha (List.mem_cons_of_mem b h')) hnd' hl'
          (fun c hc => htot c (List.mem_cons_of_mem b hc))
          (fun c hc d hd => htrans c (List.mem_cons_of_mem b hc) d (List.mem_cons_of_mem b hd))

/-- The insertion-sort model of `sort.Slice` produces a list sorted under
the relation when the relation is total and transitive over the (pairwise
distinct) elements of the input. -/
theorem sorted_insertionSort_of {α : Type} (r : α → α → Prop) [DecidableRel r]
    (l : List α) (hnd : l.Nodup)
    (htot : ∀ a ∈ l, ∀ b ∈ l, a ≠ b → r a b ∨ r b a)
    (htrans : ∀ a ∈ l, ∀ b ∈ l, ∀ c ∈ l, a ≠ b → b ≠ c → r a b → r b c → r a c) :
    (l.insertionSort r).Sorted r := by
  induction l with
  | nil => simp
  | cons a l ih =>
    rcases List.nodup_cons.mp hnd with ⟨hal, hnd'⟩
    rw [List.insertionSort]
    have hmem : ∀ b ∈ l.insertionSort r, b ∈ l := fun b hb => (List.mem_insertionSort r).mp hb
    refine sorted_orderedInsert_of r a _ (fun h => hal (hmem a h))
      (((List.perm_insertionSort r l).nodup_iff).mpr hnd')
      (ih hnd' (fun b hb c hc => htot b (List.mem_cons_of_mem a hb) c (List.mem_cons_of_mem a hc))
        (fun b hb c hc d hd => htrans b (List.mem_cons_of_mem a hb) c (List.mem_cons_of_mem a hc)
          d (List.mem_cons_of_mem a hd)))
      ?_ ?_
    · intro b hb
      exact htot a (List.mem_cons_self a l) b (List.mem_cons_of_mem a (hmem b hb))
        (fun h => hal (h ▸ hmem b hb))
    · intro b hb c hc hbc
      exact htrans a (List.mem_cons_self a l) b (List.mem_cons_of_mem a (hmem b hb))
        c (List.mem_cons_of_mem a (hmem c hc)) (fun h => hal (h ▸ hmem b hb)) hbc

/-! ### Characterization of one slot-set entry's decode -/

/-- Shape of a successfully decoded node entry. -/
theorem decodeNodeStrs_ok {slots : Nat × Nat} {master : Option Node} {strs : List String}
    {n : Node} (h : decodeNodeStrs slots master strs = .ok n) :
    ∃ ip port rest, strs = ip :: port :: rest ∧
      n.Addr = ip ++ ":" ++ port ∧ n.ID = rest.headD "" ∧ n.Slots = [slots] ∧
      ((master = none ∧ n.SlaveOfAddr = "" ∧ n.SlaveOfID = "") ∨
        (∃ m, master = some m ∧ n.SlaveOfAddr = m.Addr ∧ n.SlaveOfID = m.ID)) := by
  match strs with
  | [] => simp [decodeNodeStrs] at h
  | [_] => simp [decodeNodeStrs] at h
  | ip :: port :: rest =>
    refine ⟨ip, port, rest, rfl, ?_⟩
    cases master with
    | none =>
      simp only [decodeNodeStrs, Except.ok.injEq] at h
      subst h
      exact ⟨rfl, rfl, rfl, Or.inl ⟨rfl, rfl, rfl⟩⟩
    | some m =>
      simp only [decodeNodeStrs, Except.ok.injEq] at h
      subst h
      exact ⟨rfl, rfl, rfl, Or.inr ⟨m, rfl, rfl, rfl⟩⟩

/-- A node entry fails to decode exactly when it is shorter than two
elements, and the error then carries that entry. -/
theorem decodeNodeStrs_error {slots : Nat × Nat} {master : Option Node} {strs : List String}
    {e : DecodeErr} (h : decodeNodeStrs slots master strs = .error e) :
    e = .malformedNode strs ∧ strs.length < 2 := by
  match strs with
  | [] => simp only [decodeNodeStrs, Except.error.injEq] at h; exact ⟨h.symm ▸ rfl, by simp⟩
  | [s] => simp only [decodeNodeStrs, Except.error.injEq] at h; exact ⟨h.symm ▸ rfl, by simp⟩
  | ip :: port :: rest => cases master <;> simp [decodeNodeStrs] at h

/-- Every node produced by one slot-set entry carries exactly that entry's
(single) range. -/
theorem decodeSlotSetNodes_slots {slots : Nat × Nat} :
    ∀ {master : Option Node} {l : List (List String)} {ns : List Node},
      decodeSlotSetNodes slots master l = .ok ns → ∀ n ∈ ns, n.Slots = [slots]
  | _, [], _, h => by
    simp only [decodeSlotSetNodes, Except.ok.injEq] at h
    subst h; intro n hn; cases hn
  | master, strs :: rest, ns, h => by
    intro n hn
    simp only [decodeSlotSetNodes, bind, Except.bind] at h
    cases hd : decodeNodeStrs slots master strs with
    | error e => rw [hd] at h; dsimp only at h; cases h
    | ok n0 =>
      rw [hd] at h; dsimp only at h
      cases htl : decodeSlotSetNodes slots (some (master.getD n0)) rest with
      | error e => rw [htl] at h; dsimp only [Option.getD] at h; cases h
      | ok tl =>
        rw [htl] at h; dsimp only [Option.getD] at h
        simp only [Except.ok.injEq] at h
        subst h
        rcases List.mem_cons.mp hn with rfl | hn
        · exact (decodeNodeStrs_ok hd).choose_spec.choose_spec.choose_spec.2.2.2.1
        · exact decodeSlotSetNodes_slots htl n hn

/-- Once the master of a slot-set entry is fixed, every further node entry
decodes as a replica of exactly that master. -/
theorem decodeSlotSetNodes_replicas {slots : Nat × Nat} {m : Node} :
    ∀ {l : List (List String)} {ns : List Node},
      decodeSlotSetNodes slots (some m) l = .ok ns →
      ∀ n ∈ ns, n.SlaveOfAddr = m.Addr ∧ n.SlaveOfID = m.ID
  | [], _, h => by
    simp only [decodeSlotSetNodes, Except.ok.injEq] at h
    subst h; intro n hn; cases hn
  | strs :: rest, ns, h => by
    intro n hn
    simp only [decodeSlotSetNodes, bind, Except.bind] at h
    cases hd : decodeNodeStrs slots (some m) strs with
    | error e => rw [hd] at h; dsimp only [Option.getD] at h; cases h
    | ok n0 =>
      rw [hd] at h; dsimp only [Option.getD] at h
      cases htl : decodeSlotSetNodes slots (some m) rest with
      | error e => rw [htl] at h; dsimp only [Option.getD] at h; cases h
      | ok tl =>
        rw [htl] at h; dsimp only [Option.getD] at h
        simp only [Except.ok.injEq] at h
        subst h
        rcases List.mem_cons.mp hn with rfl | hn
        · rcases decodeNodeStrs_ok hd with ⟨ip, port, rest', _, _, _, _, hmm⟩
          rcases hmm with ⟨hnone, _, _⟩ | ⟨m', hm', ha, hi⟩
          · cases hnone
          · cases hm'; exact ⟨ha, hi⟩
        · exact decodeSlotSetNodes_replicas htl n hn

/-- Shape of a whole slot-set entry's successful decode: either no node
entries, or a first (master) node followed by its replicas. -/
theorem decodeSlotSetNodes_none_ok {slots : Nat × Nat} {l : List (List String)} {ns : List Node}
    (h : decodeSlotSetNodes slots none l = .ok ns) :
    (l = [] ∧ ns = []) ∨
      ∃ strs rest n tl, l = strs :: rest ∧ ns = n :: tl ∧
        decodeNodeStrs slots none strs = .ok n ∧
        decodeSlotSetNodes slots (some n) rest = .ok tl := by
  match l with
  | [] =>
    simp only [decodeSlotSetNodes, Except.ok.injEq] at h
    exact Or.inl ⟨rfl, h.symm⟩
  | strs :: rest =>
    refine Or.inr ?_
    simp only [decodeSlotSetNodes, bind, Except.bind] at h
    cases hd : decodeNodeStrs slots none strs with
    | error e => rw [hd] at h; dsimp only [Option.getD] at h; cases h
    | ok n0 =>
      rw [hd] at h; dsimp only [Option.getD] at h
      cases htl : decodeSlotSetNodes slots (some n0) rest with
      | error e => rw [htl] at h; dsimp only [Option.getD] at h; cases h
      | ok tl =>
        rw [htl] at h; dsimp only [Option.getD] at h
        simp only [Except.ok.injEq] at h
        exact ⟨strs, rest, n0, tl, rfl, h.symm, hd, htl⟩

/-- C5: for every inclusive wire range `[a, b]` with `a ≤ b` in the valid
slot domain (`0..16383`), decode produces the half-open model range
`[a, b+1)` by incrementing the end, and encoding that half-open range emits
the inclusive bounds `[a, b]` again. -/
theorem C5_range_conversion (a b : Nat) (hab : a ≤ b) (hb : b ≤ 16383) :
    (∀ (strs : List (List String)) (ns : List Node),
        decodeSlotSet ⟨a, b, strs⟩ = .ok ns → ∀ n ∈ ns, n.Slots = [(a, b + 1)]) ∧
    (∀ ns : List Node,
        (encodeSlotSet ((a, b + 1), ns)).start = a ∧
          (encodeSlotSet ((a, b + 1), ns)).stop = b) := by
  constructor
  · intro strs ns h n hn
    have h' : decodeSlotSetNodes (u16 a, u16 (b + 1)) none strs = .ok ns := h
    rw [u16_eq_of_lt (by omega), u16_eq_of_lt (show b + 1 < 65536 by omega)] at h'
    exact decodeSlotSetNodes_slots h' n hn
  · intro ns
    refine ⟨rfl, ?_⟩
    show u16 (b + 1 + 65535) = b
    unfold u16
    omega

/-- Witness for C5 at the concrete range `[0, 5460]`. -/
theorem C5_range_conversion_witness :
    (encodeSlotSet ((0, 5461), [])).start = 0 ∧ (encodeSlotSet ((0, 5461), [])).stop = 5460 ∧
      ∀ n ∈ ([⟨"h:1", "", [(0, 5461)], "", ""⟩] : List Node), n.Slots = [(0, 5461)] :=
  ⟨((C5_range_conversion 0 5460 (by decide) (by decide)).2 []).1,
    ((C5_range_conversion 0 5460 (by decide) (by decide)).2 []).2,
    (C5_range_conversion 0 5460 (by decide) (by decide)).1 [["h", "1"]] _ rfl⟩

/-- C3: in every decoded slot-set entry the first node entry becomes a Node
with empty `SlaveOfAddr`/`SlaveOfID`, and every subsequent node entry
becomes a Node whose `SlaveOfAddr`/`SlaveOfID` equal the first entry's
address and id — never those of another replica. -/
theorem C3_master_replica (w : WireSlotSet) (ns : List Node)
    (h : decodeSlotSet w = .ok ns) (h0 : Node) (rest : List Node) (hns : ns = h0 :: rest) :
    h0.SlaveOfAddr = "" ∧ h0.SlaveOfID = "" ∧
      ∀ n ∈ rest, n.SlaveOfAddr = h0.Addr ∧ n.SlaveOfID = h0.ID := by
  subst hns
  rcases decodeSlotSetNodes_none_ok h with ⟨_, hcon⟩ | ⟨strs, rest', n, tl, hl, hcons, hd, htl⟩
  · cases hcon
  · injection hcons with h1 h2
    subst h1
    subst h2
    rcases decodeNodeStrs_ok hd with ⟨ip, port, r, _, _, _, _, hm⟩
    rcases hm with ⟨_, hsa, hsi⟩ | ⟨m, hm, _, _⟩
    · exact ⟨hsa, hsi, fun n hn => decodeSlotSetNodes_replicas htl n hn⟩
    · cases hm

/-- Witness for C3 on a slot-set entry with three node entries. -/
theorem C3_master_replica_witness :
    (⟨"h:1", "ida", [(0, 5461)], "", ""⟩ : Node).SlaveOfAddr = "" ∧
      (⟨"h:1", "ida", [(0, 5461)], "", ""⟩ : Node).SlaveOfID = "" ∧
      ∀ n ∈ ([⟨"g:2", "idb", [(0, 5461)], "h:1", "ida"⟩,
              ⟨"f:3", "idc", [(0, 5461)], "h:1", "ida"⟩] : List Node),
        n.SlaveOfAddr = (⟨"h:1", "ida", [(0, 5461)], "", ""⟩ : Node).Addr ∧
          n.SlaveOfID = (⟨"h:1", "ida", [(0, 5461)], "", ""⟩ : Node).ID :=
  C3_master_replica ⟨0, 5460, [["h", "1", "ida"], ["g", "2", "idb"], ["f", "3", "idc"]]⟩
    _ rfl _ _ rfl

/-- C2 counterexample: the claim fails on both counts.  Two distinct
masters sharing an identical first range each compare strictly before the
other, so sorting the pair swaps it every time — sorting the
already-sorted output changes the order again (idempotence fails).  And
two distinct replicas with different addresses but a shared first range
compare as equal in both directions (the comparison is not a total
order). -/
theorem C2_counterexample :
    topoSort (topoSort [⟨"a:1", "", [(0, 5)], "", ""⟩, ⟨"b:2", "", [(0, 5)], "", ""⟩]) ≠
        topoSort [⟨"a:1", "", [(0, 5)], "", ""⟩, ⟨"b:2", "", [(0, 5)], "", ""⟩] ∧
      (⟨"a:1", "", [(0, 5)], "x:1", ""⟩ : Node) ≠ ⟨"b:2", "", [(0, 5)], "x:1", ""⟩ ∧
      (⟨"a:1", "", [(0, 5)], "x:1", ""⟩ : Node).Addr ≠
        (⟨"b:2", "", [(0, 5)], "x:1", ""⟩ : Node).Addr ∧
      nodeLess ⟨"a:1", "", [(0, 5)], "x:1", ""⟩ ⟨"b:2", "", [(0, 5)], "x:1", ""⟩ = false ∧
      nodeLess ⟨"b:2", "", [(0, 5)], "x:1", ""⟩ ⟨"a:1", "", [(0, 5)], "x:1", ""⟩ = false := by
  decide

/-- C2 (amended): the canonical sort leaves a Topology unchanged when it is
already sorted in the pairwise sense — each node's slot list sorted by
start and the node list pairwise nondecreasing under the comparator.  (The
comparator is not a total order: distinct nodes with different addresses
can compare as equal, and two distinct masters with identical first range
each compare strictly before the other, so sorting such a pair swaps it;
idempotence holds only on pairwise-sorted Topologies.) -/
theorem C2_sort_idempotent_amended (tt : Topo) (h1 : ∀ n ∈ tt, sortSlots n.Slots = n.Slots)
    (h2 : tt.Sorted nodeLe) : topoSort tt = tt := by
  have hmap : tt.map sortNodeSlots = tt := by
    have : tt.map sortNodeSlots = tt.map id := by
      refine List.map_congr_left ?_
      intro n hn
      cases n with
      | mk a i s sa si =>
        have hs : sortSlots s = s := h1 _ hn
        simp [sortNodeSlots, hs]
    simpa using this
  unfold topoSort
  rw [hmap]
  exact h2.insertionSort_eq

/-- Witness for the amended C2 on a sorted master/replica pair. -/
theorem C2_sort_idempotent_amended_witness :
    topoSort [⟨"m:1", "", [(0, 5)], "", ""⟩, ⟨"r:1", "", [(0, 5)], "m:1", ""⟩] =
      [⟨"m:1", "", [(0, 5)], "", ""⟩, ⟨"r:1", "", [(0, 5)], "m:1", ""⟩] :=
  C2_sort_idempotent_amended _ (by decide) (by decide)

/-! ### Decode of the whole wire array -/

/-- Splitting a successful decode of a non-empty wire array. -/
theorem decodeSlotSets_ok_cons {w : WireSlotSet} {ws : Wire} {prov : List Node}
    (h : decodeSlotSets (w :: ws) = .ok prov) :
    ∃ ns rest, decodeSlotSet w = .ok ns ∧ decodeSlotSets ws = .ok rest ∧ prov = ns ++ rest := by
  simp only [decodeSlotSets, bind, Except.bind] at h
  cases hd : decodeSlotSet w with
  | error e => rw [hd] at h; dsimp only at h; cases h
  | ok ns =>
    rw [hd] at h; dsimp only at h
    cases htl : decodeSlotSets ws with
    | error e => rw [htl] at h; dsimp only at h; cases h
    | ok rest =>
      rw [htl] at h; dsimp only at h
      simp only [Except.ok.injEq] at h
      exact ⟨ns, rest, rfl, rfl, h.symm⟩

/-- A failing slot-set entry decode always carries a short node entry taken
from the entry itself. -/
theorem decodeSlotSetNodes_error {slots : Nat × Nat} :
    ∀ {master : Option Node} {l : List (List String)} {e : DecodeErr},
      decodeSlotSetNodes slots master l = .error e →
      ∃ strs ∈ l, e = .malformedNode strs ∧ strs.length < 2
  | _, [], _, h => by simp [decodeSlotSetNodes] at h
  | master, strs :: rest, e, h => by
    simp only [decodeSlotSetNodes, bind, Except.bind] at h
    cases hd : decodeNodeStrs slots master strs with
    | error e' =>
      rw [hd] at h; dsimp only at h
      injection h with h
      subst h
      rcases decodeNodeStrs_error hd with ⟨he, hlen⟩
      exact ⟨strs, List.mem_cons_self _ _, he, hlen⟩
    | ok n0 =>
      rw [hd] at h; dsimp only at h
      cases htl : decodeSlotSetNodes slots (some (master.getD n0)) rest with
      | error e' =>
        rw [htl] at h; dsimp only at h
        injection h with h
        subst h
        rcases decodeSlotSetNodes_error htl with ⟨s, hs, he, hlen⟩
        exact ⟨s, List.mem_cons_of_mem _ hs, he, hlen⟩
      | ok tl => rw [htl] at h; dsimp only at h; cases h

/-- A successful slot-set entry decode certifies that every node entry has
at least two elements. -/
theorem decodeSlotSetNodes_ok_lengths {slots : Nat × Nat} :
    ∀ {master : Option Node} {l : List (List String)} {ns : List Node},
      decodeSlotSetNodes slots master l = .ok ns → ∀ strs ∈ l, 2 ≤ strs.length
  | _, [], _, _ => by intro strs hs; cases hs
  | master, strs :: rest, ns, h => by
    intro s hs
    simp only [decodeSlotSetNodes, bind, Except.bind] at h
    cases hd : decodeNodeStrs slots master strs with
    | error e => rw [hd] at h; dsimp only at h; cases h
    | ok n0 =>
      rw [hd] at h; dsimp only at h
      cases htl : decodeSlotSetNodes slots (some (master.getD n0)) rest with
      | error e => rw [htl] at h; dsimp only at h; cases h
      | ok tl =>
        rcases List.mem_cons.mp hs with rfl | hs
        · rcases decodeNodeStrs_ok hd with ⟨ip, port, r, hshape, _⟩
          rw [hshape]
          simp
        · exact decodeSlotSetNodes_ok_lengths htl s hs

/-- A failing decode of the whole wire array always carries a short node
entry from one of its slot-set entries. -/
theorem decodeSlotSets_error :
    ∀ {w : Wire} {e : DecodeErr}, decodeSlotSets w = .error e →
      ∃ ws ∈ w, ∃ strs ∈ ws.nodes, e = .malformedNode strs ∧ strs.length < 2
  | [], _, h => by simp [decodeSlotSets] at h
  | w :: ws, e, h => by
    simp only [decodeSlotSets, bind, Except.bind] at h
    cases hd : decodeSlotSet w with
    | error e' =>
      rw [hd] at h; dsimp only at h
      injection h with h
      subst h
      rcases decodeSlotSetNodes_error hd with ⟨s, hs, he, hlen⟩
      exact ⟨w, List.mem_cons_self _ _, s, hs, he, hlen⟩
    | ok ns =>
      rw [hd] at h; dsimp only at h
      cases htl : decodeSlotSets ws with
      | error e' =>
        rw [htl] at h; dsimp only at h
        injection h with h
        subst h
        rcases decodeSlotSets_error htl with ⟨ws', hws, s, hs, he, hlen⟩
        exact ⟨ws', List.mem_cons_of_mem _ hws, s, hs, he, hlen⟩
      | ok rest => rw [htl] at h; dsimp only at h; cases h

/-- A short node entry anywhere in the wire input forces the whole decode
to fail. -/
theorem decodeSlotSets_error_of_short {w : Wire}
    (h : ∃ ws ∈ w, ∃ strs ∈ ws.nodes, strs.length < 2) :
    ∃ e, decodeSlotSets w = .error e := by
  cases hs : decodeSlotSets w with
  | error e => exact ⟨e, rfl⟩
  | ok prov =>
    exfalso
    rcases h with ⟨ws, hws, strs, hstrs, hshort⟩
    induction w generalizing prov with
    | nil => cases hws
    | cons w0 wrest ih =>
      rcases decodeSlotSets_ok_cons hs with ⟨ns, rest, hd, htl, _⟩
      rcases List.mem_cons.mp hws with rfl | hws'
      · have := decodeSlotSetNodes_ok_lengths hd strs hstrs
        omega
      · exact ih rest htl hws'

/-- C6: decoding a node entry with fewer than two elements fails with an
error identifying the offending raw value, every decode error is such an
error about an entry of the input, and on any decode error the receiver
`Topo` is left exactly as it was before the call — no partial topology is
ever produced. -/
theorem C6_error_abort (tt : Topo) (w : Wire) :
    (∀ e, (unmarshalTopoState tt w).1 = .error e → (unmarshalTopoState tt w).2 = tt) ∧
    (∀ strs, (unmarshalTopoState tt w).1 = .error (.malformedNode strs) →
        strs.length < 2 ∧ ∃ ws ∈ w, strs ∈ ws.nodes) ∧
    ((∃ ws ∈ w, ∃ strs ∈ ws.nodes, strs.length < 2) →
        ∃ strs, (unmarshalTopoState tt w).1 = .error (.malformedNode strs) ∧
          strs.length < 2) := by
  refine ⟨?_, ?_, ?_⟩
  · intro e he
    unfold unmarshalTopoState at he ⊢
    cases hs : decodeSlotSets w with
    | error e' => rfl
    | ok prov => rw [hs] at he; dsimp only at he; cases he
  · intro strs he
    unfold unmarshalTopoState at he
    cases hs : decodeSlotSets w with
    | error e' =>
      rw [hs] at he
      dsimp only at he
      injection he with he
      subst he
      rcases decodeSlotSets_error hs with ⟨ws, hws, s, hsm, heq, hlen⟩
      injection heq with heq
      subst heq
      exact ⟨hlen, ws, hws, hsm⟩
    | ok prov => rw [hs] at he; dsimp only at he; cases he
  · intro hshort
    rcases decodeSlotSets_error_of_short hshort with ⟨e, he⟩
    cases e with
    | malformedNode s =>
      rcases decodeSlotSets_error he with ⟨ws, hws, s', hsm, heq, hlen⟩
      injection heq with heq
      refine ⟨s, ?_, heq ▸ hlen⟩
      unfold unmarshalTopoState
      rw [he]

/-- Witness for C6: a wire input containing the short node entry
`["only"]` makes the decode fail and leaves a non-empty receiver
unchanged. -/
theorem C6_error_abort_witness :
    (unmarshalTopoState [⟨"h:7000", "idr", [(3, 9)], "m:1", "idm"⟩]
        [⟨0, 5, [["h", "1"], ["only"]]⟩]).2 = [⟨"h:7000", "idr", [(3, 9)], "m:1", "idm"⟩] ∧
    (∃ strs, (unmarshalTopoState [⟨"h:7000", "idr", [(3, 9)], "m:1", "idm"⟩]
        [⟨0, 5, [["h", "1"], ["only"]]⟩]).1 = .error (.malformedNode strs) ∧ strs.length < 2) :=
  ⟨(C6_error_abort _ _).1 (.malformedNode ["only"]) rfl,
    (C6_error_abort _ _).2.2 ⟨_, List.mem_cons_self _ _, ["only"],
      List.mem_cons_of_mem _ (List.mem_cons_self _ _), by decide⟩⟩

/-! ### Merge-pass lemmas -/

/-- Membership after one merge step: either an accumulator entry (possibly
with the new node's slots appended) or the new node itself. -/
theorem mem_updateMerge {acc : List Node} {p n : Node} (h : n ∈ updateMerge acc p) :
    (∃ e ∈ acc, n = e ∨ n = { e with Slots := e.Slots ++ p.Slots }) ∨ n = p := by
  unfold updateMerge at h
  by_cases hc : acc.any (fun e => e.Addr = p.Addr)
  · rw [if_pos hc] at h
    rcases List.mem_map.mp h with ⟨e, he, hn⟩
    by_cases hie : e.Addr = p.Addr
    · rw [if_pos hie] at hn
      exact Or.inl ⟨e, he, Or.inr hn.symm⟩
    · rw [if_neg hie] at hn
      exact Or.inl ⟨e, he, Or.inl hn.symm⟩
  · rw [if_neg hc] at h
    rcases List.mem_append.mp h with h | h
    · exact Or.inl ⟨n, h, Or.inl rfl⟩
    · right
      simpa using h

/-- The merge pass never produces a node with an empty slot list if no
input node has one. -/
theorem foldl_updateMerge_slots_nonempty :
    ∀ (prov acc : List Node), (∀ e ∈ acc, e.Slots ≠ []) → (∀ p ∈ prov, p.Slots ≠ []) →
      ∀ n ∈ prov.foldl updateMerge acc, n.Slots ≠ []
  | [], _, hacc, _, n, hn => hacc n hn
  | p :: rest, acc, hacc, hp, n, hn => by
    refine foldl_updateMerge_slots_nonempty rest (updateMerge acc p) ?_
      (fun q hq => hp q (List.mem_cons_of_mem _ hq)) n hn
    intro e he
    rcases mem_updateMerge he with ⟨e', he', heq⟩ | rfl
    · rcases heq with rfl | rfl
      · exact hacc _ he'
      · intro hc
        exact hacc _ he' (List.append_eq_nil.mp hc).1
    · exact hp _ (List.mem_cons_self _ _)

/-- Every provisional node of a successful wire decode carries exactly one
range. -/
theorem decodeSlotSets_slots_len :
    ∀ {w : Wire} {prov : List Node}, decodeSlotSets w = .ok prov →
      ∀ p ∈ prov, p.Slots.length = 1
  | [], prov, h => by
    simp only [decodeSlotSets, Except.ok.injEq] at h
    subst h
    intro p hp
    cases hp
  | ws :: w, prov, h => by
    rcases decodeSlotSets_ok_cons h with ⟨ns, rest, hd, htl, rfl⟩
    intro p hp
    rcases List.mem_append.mp hp with hp | hp
    · rw [decodeSlotSetNodes_slots hd p hp]
      rfl
    · exact decodeSlotSets_slots_len htl p hp

/-- Every element of the sorted output arises from an input node with its
slots sorted. -/
theorem mem_topoSort {tt : Topo} {n : Node} (h : n ∈ topoSort tt) :
    ∃ m ∈ tt, n = sortNodeSlots m := by
  unfold topoSort at h
  rcases List.mem_map.mp ((List.mem_insertionSort nodeLe).mp h) with ⟨m, hm, hn⟩
  exact ⟨m, hm, hn.symm⟩

/-- Sorting a non-empty slot list keeps it non-empty. -/
theorem sortSlots_ne_nil {l : List (Nat × Nat)} (h : l ≠ []) : sortSlots l ≠ [] := by
  unfold sortSlots
  intro hc
  apply h
  have hlen := congrArg List.length hc
  rw [List.length_insertionSort] at hlen
  exact List.eq_nil_of_length_eq_zero hlen

/-- C9: every node of a fully decoded Topology owns at least one slot range
(each provisional node of the decode carries exactly the one range of its
slot-set entry), so the canonical sort's access to each node's first slot
range is in bounds on every decode-produced Topology. -/
theorem C9_decoded_nodes_own_slots (w : Wire) (D : Topo) (h : unmarshalTopo [] w = .ok D) :
    (∀ n ∈ D, n.Slots ≠ []) ∧
      ∀ prov, decodeSlotSets w = .ok prov → ∀ p ∈ prov, p.Slots.length = 1 := by
  constructor
  · intro n hn
    unfold unmarshalTopo at h
    cases hs : decodeSlotSets w with
    | error e => rw [hs] at h; cases h
    | ok prov =>
      rw [hs] at h
      dsimp only at h
      injection h with h
      subst h
      rcases mem_topoSort hn with ⟨m, hm, rfl⟩
      have hm' : m ∈ mergeNodes prov := by simpa using hm
      have hne : m.Slots ≠ [] := by
        refine foldl_updateMerge_slots_nonempty prov [] (fun e he => absurd he (by simp)) ?_ m hm'
        intro p hp hc
        have := decodeSlotSets_slots_len hs p hp
        rw [hc] at this
        cases this
      show sortSlots m.Slots ≠ []
      exact sortSlots_ne_nil hne
  · intro prov hs p hp
    exact decodeSlotSets_slots_len hs p hp

/-- Witness for C9 on a one-entry wire input. -/
theorem C9_decoded_nodes_own_slots_witness :
    (⟨"h:1", "", [(0, 6)], "", ""⟩ : Node).Slots ≠ [] :=
  (C9_decoded_nodes_own_slots [⟨0, 5, [["h", "1"]]⟩]
      [⟨"h:1", "", [(0, 6)], "", ""⟩] rfl).1
    ⟨"h:1", "", [(0, 6)], "", ""⟩ (by simp)

/-- C10: a successful decode appends to the receiver rather than resetting
it — the final state is the canonical sort of the old receiver contents
followed by the newly merged nodes (so every prior node survives, with its
slots sorted), and only an empty receiver yields exactly the decoded
snapshot. -/
theorem C10_receiver_append (tt : Topo) (w : Wire) (D : Topo)
    (h : unmarshalTopo tt w = .ok D) :
    ∃ prov, decodeSlotSets w = .ok prov ∧
      D = topoSort (tt ++ mergeNodes prov) ∧
      (∀ n ∈ tt, sortNodeSlots n ∈ D) ∧
      D.length = tt.length + (mergeNodes prov).length ∧
      unmarshalTopo [] w = .ok (topoSort (mergeNodes prov)) := by
  unfold unmarshalTopo at h ⊢
  cases hs : decodeSlotSets w with
  | error e => rw [hs] at h; cases h
  | ok prov =>
    rw [hs] at h
    dsimp only at h
    injection h with h
    subst h
    refine ⟨prov, rfl, rfl, ?_, ?_, rfl⟩
    · intro n hn
      unfold topoSort
      exact (List.mem_insertionSort nodeLe).mpr
        (List.mem_map_of_mem _ (List.mem_append_left _ hn))
    · unfold topoSort
      rw [List.length_insertionSort, List.length_map, List.length_append]

/-- Witness for C10: decoding into a non-empty receiver keeps the prior
node. -/
theorem C10_receiver_append_witness :
    ∃ prov, decodeSlotSets [⟨10, 20, [["g", "2"]]⟩] = .ok prov ∧
      topoSort ([⟨"h:1", "", [(0, 6)], "", ""⟩] ++ mergeNodes prov) =
          topoSort ([⟨"h:1", "", [(0, 6)], "", ""⟩] ++ mergeNodes prov) ∧
      (∀ n ∈ ([⟨"h:1", "", [(0, 6)], "", ""⟩] : Topo), sortNodeSlots n ∈
          topoSort ([⟨"h:1", "", [(0, 6)], "", ""⟩] ++ mergeNodes prov)) ∧
      (topoSort ([⟨"h:1", "", [(0, 6)], "", ""⟩] ++ mergeNodes prov)).length =
          ([⟨"h:1", "", [(0, 6)], "", ""⟩] : Topo).length + (mergeNodes prov).length ∧
      unmarshalTopo [] [⟨10, 20, [["g", "2"]]⟩] = .ok (topoSort (mergeNodes prov)) := by
  rcases C10_receiver_append [⟨"h:1", "", [(0, 6)], "", ""⟩] [⟨10, 20, [["g", "2"]]⟩] _ rfl
    with ⟨prov, h1, h2, h3, h4, h5⟩
  exact ⟨prov, h1, rfl, h2 ▸ h3, h2 ▸ h4, h5⟩

/-! ### The canonical node order -/

/-- The sort key of `Topo.sort`: the start of a node's first slot range. -/
def nodeKey (n : Node) : Nat := (n.Slots.headD (0, 0)).1

/-- Unfolding of the comparator. -/
theorem nodeLess_def (a b : Node) :
    nodeLess a b =
      if a.Slots.headD (0, 0) ≠ b.Slots.headD (0, 0) then
        decide ((a.Slots.headD (0, 0)).1 < (b.Slots.headD (0, 0)).1)
      else decide (a.SlaveOfAddr = "") := rfl

/-- The comparator's non-strict direction bounds the key. -/
theorem nodeLe_key {a b : Node} (h : nodeLe a b) : nodeKey a ≤ nodeKey b := by
  unfold nodeKey
  unfold nodeLe at h
  rw [nodeLess_def] at h
  by_cases hne : b.Slots.headD (0, 0) ≠ a.Slots.headD (0, 0)
  · rw [if_pos hne] at h
    have : ¬ ((b.Slots.headD (0, 0)).1 < (a.Slots.headD (0, 0)).1) := by simpa using h
    omega
  · push_neg at hne
    rw [hne]

/-- The comparator's strict direction bounds the key the other way. -/
theorem not_nodeLe_key {a b : Node} (h : ¬ nodeLe a b) : nodeKey b ≤ nodeKey a := by
  unfold nodeKey
  unfold nodeLe at h
  rw [nodeLess_def] at h
  by_cases hne : b.Slots.headD (0, 0) ≠ a.Slots.headD (0, 0)
  · rw [if_pos hne] at h
    have : (b.Slots.headD (0, 0)).1 < (a.Slots.headD (0, 0)).1 := by simpa using h
    omega
  · push_neg at hne
    rw [hne]

/-- The output of `Topo.sort` always has nondecreasing first-range starts,
for every input order. -/
theorem topoSort_sorted_key (tt : Topo) :
    (topoSort tt).Sorted (fun x y => nodeKey x ≤ nodeKey y) :=
  sorted_key_insertionSort nodeLe nodeKey (fun _ _ h => nodeLe_key h)
    (fun _ _ h => not_nodeLe_key h) _

/-- C7 (amended): after sorting, a node whose first (already-sorted) slot
range starts strictly lower always precedes one that starts strictly
higher, regardless of the input order.  The master-before-replica tie-break
holds for nodes with identical first range whenever the comparator's
non-strict relation is total and transitive over the (pairwise distinct)
sorted nodes — i.e. when the comparator is a strict weak order there; for
arbitrary Topologies a replica can end up before its tied master (see the
counterexample). -/
theorem C7_canonical_order_amended :
    (∀ (tt : Topo) (i j : Fin (topoSort tt).length),
        nodeKey ((topoSort tt).get i) < nodeKey ((topoSort tt).get j) → (i : Nat) < j) ∧
    (∀ tt : Topo,
        (tt.map sortNodeSlots).Nodup →
        (∀ a ∈ tt.map sortNodeSlots, ∀ b ∈ tt.map sortNodeSlots,
            a ≠ b → nodeLe a b ∨ nodeLe b a) →
        (∀ a ∈ tt.map sortNodeSlots, ∀ b ∈ tt.map sortNodeSlots, ∀ c ∈ tt.map sortNodeSlots,
            a ≠ b → b ≠ c → nodeLe a b → nodeLe b c → nodeLe a c) →
        ∀ M R : Node, M.SlaveOfAddr = "" → R.SlaveOfAddr ≠ "" →
          M.Slots.headD (0, 0) = R.Slots.headD (0, 0) →
          ∀ i j : Fin (topoSort tt).length,
            (topoSort tt).get i = R → (topoSort tt).get j = M → (j : Nat) < i) := by
  constructor
  · intro tt i j hlt
    have hs := topoSort_sorted_key tt
    rw [List.Sorted, List.pairwise_iff_get] at hs
    rcases Nat.lt_trichotomy (i : Nat) j with hij | hij | hij
    · exact hij
    · exfalso
      have : i = j := Fin.ext hij
      subst this
      omega
    · exfalso
      have := hs j i hij
      omega
  · intro tt hnd htot htrans M R hM hR hMR i j hiR hjM
    have hs : (topoSort tt).Sorted nodeLe :=
      sorted_insertionSort_of nodeLe _ hnd htot htrans
    rw [List.Sorted, List.pairwise_iff_get] at hs
    rcases Nat.lt_trichotomy (i : Nat) j with hij | hij | hij
    · exfalso
      have hle := hs i j hij
      rw [hiR, hjM] at hle
      unfold nodeLe at hle
      rw [nodeLess_def] at hle
      rw [if_neg (by simpa using hMR)] at hle
      rw [hM] at hle
      simp at hle
    · exfalso
      have : i = j := Fin.ext hij
      subst this
      rw [hiR] at hjM
      exact hR (hjM ▸ hM)
    · exact hij

/-- C7 counterexample: with a third node interleaving two comparator-tied
nodes, `Topo.sort` leaves the replica `x:1` (index 0) before the master
`z:1` (index 2) even though both have first-range start `0` and exactly one
of them is a master — the claimed tie-break does not hold as stated.  (On a
three-element slice Go's `sort.Slice` performs exactly this insertion
sort.) -/
theorem C7_counterexample :
    topoSort [⟨"x:1", "", [(0, 5)], "b:2", ""⟩, ⟨"y:1", "", [(0, 7)], "", ""⟩,
        ⟨"z:1", "", [(0, 5)], "", ""⟩] =
      [⟨"x:1", "", [(0, 5)], "b:2", ""⟩, ⟨"y:1", "", [(0, 7)], "", ""⟩,
        ⟨"z:1", "", [(0, 5)], "", ""⟩] ∧
    (⟨"x:1", "", [(0, 5)], "b:2", ""⟩ : Node).SlaveOfAddr ≠ "" ∧
    (⟨"z:1", "", [(0, 5)], "", ""⟩ : Node).SlaveOfAddr = "" ∧
    nodeKey ⟨"x:1", "", [(0, 5)], "b:2", ""⟩ = nodeKey ⟨"z:1", "", [(0, 5)], "", ""⟩ := by
  decide

/-- Witness for the amended C7: strict start order at concrete indices, and
the tie-break on a concrete replica/master pair given the strict-weak-order
hypotheses. -/
theorem C7_canonical_order_amended_witness : ((0 : Nat) < 1) ∧ ((0 : Nat) < 1) :=
  ⟨C7_canonical_order_amended.1 [⟨"b:2", "", [(7, 9)], "", ""⟩, ⟨"a:1", "", [(0, 5)], "", ""⟩]
      ⟨0, by decide⟩ ⟨1, by decide⟩ (by decide),
    C7_canonical_order_amended.2 [⟨"r:1", "", [(0, 5)], "m:1", ""⟩, ⟨"m:1", "", [(0, 5)], "", ""⟩]
      (by decide) (by decide) (by decide)
      ⟨"m:1", "", [(0, 5)], "", ""⟩ ⟨"r:1", "", [(0, 5)], "m:1", ""⟩
      (by decide) (by decide) (by decide) ⟨1, by decide⟩ ⟨0, by decide⟩
      (by decide) (by decide)⟩

/-! ### Generic association-list facts -/

/-- `find?` only depends on the pointwise behaviour of the predicate. -/
theorem find?_pred_congr {α : Type} {p q : α → Bool} (h : ∀ x, p x = q x) (l : List α) :
    l.find? p = l.find? q := by
  rw [funext h]

/-- In a list with duplicate-free keys, `find?` by a member's key returns
exactly that member. -/
theorem find?_of_mem_nodupKeys {α κ : Type} [DecidableEq κ] (key : α → κ) :
    ∀ {l : List α}, (l.map key).Nodup → ∀ {b}, b ∈ l →
      l.find? (fun x => key x = key b) = some b
  | [], _, _, hb => absurd hb (by simp)
  | x :: l, hnd, b, hb => by
    rcases List.mem_cons.mp hb with rfl | hb
    · simp [List.find?]
    · rw [List.map_cons] at hnd
      have hnd' := List.nodup_cons.mp hnd
      have hx : key x ≠ key b := by
        intro hc
        have : key b ∈ l.map key := List.mem_map_of_mem key hb
        rw [← hc] at this
        exact hnd'.1 this
      rw [List.find?]
      rw [show (decide (key x = key b)) = false by simpa using hx]
      exact find?_of_mem_nodupKeys key hnd'.2 hb

/-- `find?` returns the head of the filtered list. -/
theorem find?_eq_head?_filter_pred {α : Type} (p : α → Bool) :
    ∀ l : List α, l.find? p = (l.filter p).head?
  | [] => rfl
  | x :: l => by
    rw [List.find?, List.filter]
    cases hx : p x
    · exact find?_eq_head?_filter_pred p l
    · rfl

/-- Exactly one element carries a key that occurs in a duplicate-free key
list. -/
theorem countP_key_eq_one {α κ : Type} [DecidableEq κ] (key : α → κ) :
    ∀ (l : List α), (l.map key).Nodup → ∀ a ∈ l.map key,
      l.countP (fun x => key x = a) = 1
  | [], _, a, ha => absurd ha (by simp)
  | x :: l, hnd, a, ha => by
    rw [List.map_cons] at hnd ha
    have hnd' := List.nodup_cons.mp hnd
    rw [List.countP_cons]
    by_cases hx : key x = a
    · have hrest : l.countP (fun x => key x = a) = 0 := by
        rw [List.countP_eq_zero]
        intro y hy hc
        apply hnd'.1
        rw [hx, ← show key y = a by simpa using hc]
        exact List.mem_map_of_mem key hy
      simp [hrest, hx]
    · have ha' : a ∈ l.map key := by
        rcases List.mem_cons.mp ha with h | h
        · exact absurd h.symm hx
        · exact h
      rw [countP_key_eq_one key l hnd'.2 a ha']
      simp [hx]

/-! ### Bucket lemmas for `Topo.MarshalRESP` -/

/-- The key list after one bucket insertion. -/
theorem addToBuckets_keys (bs : List ((Nat × Nat) × List Node)) (r : Nat × Nat) (n : Node) :
    (addToBuckets bs r n).map Prod.fst =
      if r ∈ bs.map Prod.fst then bs.map Prod.fst else bs.map Prod.fst ++ [r] := by
  unfold addToBuckets
  by_cases hc : bs.any (fun b => b.1 = r)
  · rw [if_pos hc, if_pos]
    · rw [List.map_map]
      refine List.map_congr_left ?_
      intro b _
      by_cases hb : b.1 = r
      · simp [hb]
      · simp [hb]
    · rcases List.any_eq_true.mp hc with ⟨b, hb, hbr⟩
      exact (of_decide_eq_true hbr) ▸ List.mem_map_of_mem Prod.fst hb
  · rw [if_neg hc, if_neg]
    · simp
    · intro hr
      rcases List.mem_map.mp hr with ⟨b, hb, hbr⟩
      exact hc (List.any_eq_true.mpr ⟨b, hb, decide_eq_true hbr⟩)

/-- `find?` at a different key is untouched by a bucket insertion. -/
theorem find?_addToBuckets_ne {bs : List ((Nat × Nat) × List Node)} {r : Nat × Nat} {n : Node}
    {r' : Nat × Nat} (h : r' ≠ r) :
    (addToBuckets bs r n).find? (fun b => b.1 = r') = bs.find? (fun b => b.1 = r') := by
  unfold addToBuckets
  by_cases hc : bs.any (fun b => b.1 = r)
  · rw [if_pos hc, List.find?_map]
    have hcong : ∀ b : (Nat × Nat) × List Node,
        ((fun b => decide (b.1 = r')) ∘ fun b =>
          if b.1 = r then (b.1, b.2 ++ [n]) else b) b = decide (b.1 = r') := by
      intro b
      by_cases hb : b.1 = r <;> simp [hb]
    rw [find?_pred_congr hcong]
    cases hf : bs.find? (fun b => b.1 = r') with
    | none => rfl
    | some b1 =>
      have hb1 : b1.1 = r' := by simpa using List.find?_some hf
      have : ¬ (b1.1 = r) := by rw [hb1]; exact h
      simp [this]
  · rw [if_neg hc, List.find?_append]
    have : List.find? (fun b => decide (b.1 = r')) [(r, [n])] = none := by
      simp [List.find?, h.symm]
    rw [this]
    cases bs.find? (fun b => b.1 = r') <;> rfl

/-- `find?` at the inserted key after a bucket insertion. -/
theorem find?_addToBuckets_eq (bs : List ((Nat × Nat) × List Node)) (r : Nat × Nat) (n : Node) :
    (addToBuckets bs r n).find? (fun b => b.1 = r) =
      some (match bs.find? (fun b => b.1 = r) with
            | some b => (b.1, b.2 ++ [n])
            | none => (r, [n])) := by
  unfold addToBuckets
  by_cases hc : bs.any (fun b => b.1 = r)
  · rw [if_pos hc, List.find?_map]
    have hcong : ∀ b : (Nat × Nat) × List Node,
        ((fun b => decide (b.1 = r)) ∘ fun b =>
          if b.1 = r then (b.1, b.2 ++ [n]) else b) b = decide (b.1 = r) := by
      intro b
      by_cases hb : b.1 = r <;> simp [hb]
    rw [find?_pred_congr hcong]
    rcases List.any_eq_true.mp hc with ⟨b, hb, hbr⟩
    have hsome : (bs.find? (fun b => b.1 = r)).isSome := by
      rw [List.find?_isSome]
      exact ⟨b, hb, hbr⟩
    cases hf : bs.find? (fun b => b.1 = r) with
    | none => rw [hf] at hsome; cases hsome
    | some b0 =>
      have hb0 : b0.1 = r := by simpa using List.find?_some hf
      simp [hb0]
  · rw [if_neg hc, List.find?_append]
    have hnone : bs.find? (fun b => b.1 = r) = none := by
      rw [List.find?_eq_none]
      intro b hb hbr
      exact hc (List.any_eq_true.mpr ⟨b, hb, hbr⟩)
    rw [hnone]
    simp [List.find?]

/-- Folding one node's slot list into the buckets does not touch `find?` at
ranges the node does not own. -/
theorem find?_slotsFold_ne {n : Node} :
    ∀ {sl : List (Nat × Nat)} {bs : List ((Nat × Nat) × List Node)} {r' : Nat × Nat},
      r' ∉ sl →
      (sl.foldl (fun bs' r => addToBuckets bs' r n) bs).find? (fun b => b.1 = r') =
        bs.find? (fun b => b.1 = r')
  | [], _, _, _ => rfl
  | s :: sl, bs, r', h => by
    rw [List.foldl_cons]
    rw [find?_slotsFold_ne (fun hc => h (List.mem_cons_of_mem _ hc))]
    exact find?_addToBuckets_ne (fun hc => h (by rw [hc]; exact List.mem_cons_self _ _))

/-- Folding one node's duplicate-free slot list appends the node once to
the bucket of each owned range. -/
theorem find?_slotsFold_eq {n : Node} :
    ∀ {sl : List (Nat × Nat)}, sl.Nodup →
      ∀ {bs : List ((Nat × Nat) × List Node)} {r : Nat × Nat}, r ∈ sl →
        (sl.foldl (fun bs' r => addToBuckets bs' r n) bs).find? (fun b => b.1 = r) =
          some (match bs.find? (fun b => b.1 = r) with
                | some b => (b.1, b.2 ++ [n])
                | none => (r, [n]))
  | [], _, _, _, h => absurd h (by simp)
  | s :: sl, hnd, bs, r, h => by
    rw [List.foldl_cons]
    have hnd' := List.nodup_cons.mp hnd
    rcases List.mem_cons.mp h with rfl | h'
    · rw [find?_slotsFold_ne hnd'.1]
      exact find?_addToBuckets_eq bs r n
    · rw [find?_slotsFold_eq hnd'.2 h']
      rw [find?_addToBuckets_ne (fun hc => hnd'.1 (by rw [← hc]; exact h'))]

/-- Key membership after folding one node's slot list. -/
theorem mem_keys_slotsFold {n : Node} :
    ∀ (sl : List (Nat × Nat)) (bs : List ((Nat × Nat) × List Node)) (x : Nat × Nat),
      x ∈ (sl.foldl (fun bs' r => addToBuckets bs' r n) bs).map Prod.fst ↔
        x ∈ bs.map Prod.fst ∨ x ∈ sl
  | [], bs, x => by simp
  | s :: sl, bs, x => by
    rw [List.foldl_cons, mem_keys_slotsFold sl _ x, addToBuckets_keys]
    by_cases hs : s ∈ bs.map Prod.fst
    · rw [if_pos hs]
      simp only [List.mem_cons]
      constructor
      · rintro (h | h)
        · exact Or.inl h
        · exact Or.inr (Or.inr h)
      · rintro (h | rfl | h)
        · exact Or.inl h
        · exact Or.inl hs
        · exact Or.inr h
    · rw [if_neg hs]
      simp only [List.mem_append, List.mem_singleton, List.mem_cons]
      tauto

/-- Key distinctness is preserved by folding one node's slot list. -/
theorem nodup_keys_slotsFold {n : Node} :
    ∀ (sl : List (Nat × Nat)) (bs : List ((Nat × Nat) × List Node)),
      (bs.map Prod.fst).Nodup →
      ((sl.foldl (fun bs' r => addToBuckets bs' r n) bs).map Prod.fst).Nodup
  | [], _, h => h
  | s :: sl, bs, h => by
    rw [List.foldl_cons]
    refine nodup_keys_slotsFold sl _ ?_
    rw [addToBuckets_keys]
    by_cases hs : s ∈ bs.map Prod.fst
    · rw [if_pos hs]
      exact h
    · rw [if_neg hs]
      exact List.Nodup.append h (List.nodup_singleton s) (by simpa using hs)

/-- `find?` characterization of the bucket fold: the bucket of range `r`
collects, in order, exactly the nodes owning `r` (slot lists assumed
duplicate-free). -/
theorem find?_buckets_fold :
    ∀ (tt : Topo) (acc : List ((Nat × Nat) × List Node)) (r : Nat × Nat),
      (∀ n ∈ tt, n.Slots.Nodup) →
      (tt.foldl bucketStep acc).find? (fun b => b.1 = r) =
        match acc.find? (fun b => b.1 = r) with
        | some b => some (b.1, b.2 ++ tt.filter (fun n => decide (r ∈ n.Slots)))
        | none =>
          match tt.filter (fun n => decide (r ∈ n.Slots)) with
          | [] => none
          | owners => some (r, owners)
  | [], acc, r, _ => by
    rw [List.foldl_nil]
    cases hf : acc.find? (fun b => b.1 = r) with
    | none => rfl
    | some b => simp
  | n :: tt, acc, r, hnd => by
    rw [List.foldl_cons]
    have htl := find?_buckets_fold tt (bucketStep acc n) r
      (fun m hm => hnd m (List.mem_cons_of_mem _ hm))
    by_cases hr : r ∈ n.Slots
    · have hstep : (bucketStep acc n).find? (fun b => b.1 = r) =
          some (match acc.find? (fun b => b.1 = r) with
                | some b => (b.1, b.2 ++ [n])
                | none => (r, [n])) :=
        find?_slotsFold_eq (hnd n (List.mem_cons_self _ _)) hr
      rw [htl, hstep]
      rw [List.filter_cons_of_pos (by simpa using hr)]
      cases hf : acc.find? (fun b => b.1 = r) with
      | some b => simp
      | none => simp
    · have hstep : (bucketStep acc n).find? (fun b => b.1 = r) =
          acc.find? (fun b => b.1 = r) := find?_slotsFold_ne hr
      rw [htl, hstep]
      rw [List.filter_cons_of_neg (by simpa using hr)]

/-- Key membership in the bucket fold. -/
theorem mem_keys_buckets_fold :
    ∀ (tt : Topo) (acc : List ((Nat × Nat) × List Node)) (x : Nat × Nat),
      x ∈ (tt.foldl bucketStep acc).map Prod.fst ↔
        x ∈ acc.map Prod.fst ∨ ∃ n ∈ tt, x ∈ n.Slots
  | [], acc, x => by simp
  | n :: tt, acc, x => by
    rw [List.foldl_cons, mem_keys_buckets_fold tt _ x]
    show x ∈ (bucketStep acc n).map Prod.fst ∨ _ ↔ _
    unfold bucketStep
    rw [mem_keys_slotsFold]
    simp only [List.mem_cons]
    constructor
    · rintro ((h | h) | ⟨m, hm, hx⟩)
      · exact Or.inl h
      · exact Or.inr ⟨n, Or.inl rfl, h⟩
      · exact Or.inr ⟨m, Or.inr hm, hx⟩
    · rintro (h | ⟨m, rfl | hm, hx⟩)
      · exact Or.inl (Or.inl h)
      · exact Or.inl (Or.inr hx)
      · exact Or.inr ⟨m, hm, hx⟩

/-- Bucket keys are pairwise distinct. -/
theorem nodup_keys_buckets_fold :
    ∀ (tt : Topo) (acc : List ((Nat × Nat) × List Node)),
      (acc.map Prod.fst).Nodup → ((tt.foldl bucketStep acc).map Prod.fst).Nodup
  | [], _, h => h
  | n :: tt, acc, h => by
    rw [List.foldl_cons]
    exact nodup_keys_buckets_fold tt _ (nodup_keys_slotsFold _ _ h)

instance : IsTotal ((Nat × Nat) × List Node) bucketLe :=
  ⟨fun a b => Nat.le_total a.1.1 b.1.1⟩

instance : IsTrans ((Nat × Nat) × List Node) bucketLe :=
  ⟨fun _ _ _ h1 h2 => Nat.le_trans h1 h2⟩

/-- The bucket order emitted by `Topo.MarshalRESP` is sorted by range
start. -/
theorem sortBuckets_sorted (bs : List ((Nat × Nat) × List Node)) :
    (sortBuckets bs).Sorted bucketLe :=
  List.sorted_insertionSort bucketLe bs

/-- Sorting the buckets only reorders them. -/
theorem sortBuckets_perm (bs : List ((Nat × Nat) × List Node)) :
    (sortBuckets bs).Perm bs :=
  List.perm_insertionSort bucketLe bs

/-- Every bucket of `buckets tt` holds exactly the owners of its range, in
topology order. -/
theorem mem_buckets_value {tt : Topo} (hnd : ∀ n ∈ tt, n.Slots.Nodup)
    {b : (Nat × Nat) × List Node} (hb : b ∈ buckets tt) :
    b.2 = tt.filter (fun n => decide (b.1 ∈ n.Slots)) ∧
      tt.filter (fun n => decide (b.1 ∈ n.Slots)) ≠ [] := by
  have hkeys : ((buckets tt).map Prod.fst).Nodup := nodup_keys_buckets_fold tt [] (by simp)
  have hfind : (buckets tt).find? (fun x => x.1 = b.1) = some b :=
    find?_of_mem_nodupKeys Prod.fst hkeys hb
  have hchar : (buckets tt).find? (fun x => x.1 = b.1) =
      match tt.filter (fun n => decide (b.1 ∈ n.Slots)) with
      | [] => none
      | owners => some (b.1, owners) :=
    find?_buckets_fold tt [] b.1 hnd
  rw [hfind] at hchar
  cases hflt : tt.filter (fun n => decide (b.1 ∈ n.Slots)) with
  | nil =>
    rw [hflt] at hchar
    cases hchar
  | cons o os =>
    rw [hflt] at hchar
    injection hchar with hchar
    have hb2 : b.2 = o :: os := congrArg Prod.snd hchar
    exact ⟨hb2, by simp⟩

/-- C8: `Topo.MarshalRESP` emits exactly one slot-set entry per distinct
half-open range occurring in the Topology (a node with several ranges is in
several buckets), the entries are ordered by ascending range start, the
outer array header count equals the number of buckets, and each node entry
is host and port split from the address followed by the id only when the id
is non-empty. -/
theorem C8_encode_structure (tt : Topo) (hnd : ∀ n ∈ tt, n.Slots.Nodup) :
    encodeHeaderN tt = (encodeTopo tt).length ∧
    (encodeTopo tt).Sorted (fun x y => x.start ≤ y.start) ∧
    ((sortBuckets (buckets tt)).map Prod.fst).Nodup ∧
    (∀ r : Nat × Nat, r ∈ (sortBuckets (buckets tt)).map Prod.fst ↔ ∃ n ∈ tt, r ∈ n.Slots) ∧
    (∀ b ∈ sortBuckets (buckets tt),
        b.2 = tt.filter (fun n => decide (b.1 ∈ n.Slots)) ∧
          encodeSlotSet b ∈ encodeTopo tt ∧
          (encodeSlotSet b).nodes = b.2.map nodeWireEntry) ∧
    (∀ ws ∈ encodeTopo tt, ∀ ne ∈ ws.nodes, ∃ n ∈ tt, ne = nodeWireEntry n) := by
  have hperm : (sortBuckets (buckets tt)).Perm (buckets tt) := sortBuckets_perm _
  refine ⟨?_, ?_, ?_, ?_, ?_, ?_⟩
  · simp [encodeHeaderN, encodeTopo]
  · have hs := sortBuckets_sorted (buckets tt)
    unfold encodeTopo
    exact List.pairwise_map.mpr hs
  · exact ((hperm.map Prod.fst).nodup_iff).mpr (nodup_keys_buckets_fold tt [] (by simp))
  · intro r
    rw [(hperm.map Prod.fst).mem_iff]
    have hm : r ∈ (buckets tt).map Prod.fst ↔
        r ∈ ([] : List ((Nat × Nat) × List Node)).map Prod.fst ∨ ∃ n ∈ tt, r ∈ n.Slots :=
      mem_keys_buckets_fold tt [] r
    rw [hm]
    simp
  · intro b hb
    have hb' : b ∈ buckets tt := hperm.mem_iff.mp hb
    refine ⟨(mem_buckets_value hnd hb').1, ?_, rfl⟩
    exact List.mem_map_of_mem encodeSlotSet hb
  · intro ws hws ne hne
    rcases List.mem_map.mp hws with ⟨b, hb, rfl⟩
    rcases List.mem_map.mp hne with ⟨n, hn, rfl⟩
    have hb' : b ∈ buckets tt := hperm.mem_iff.mp hb
    have := (mem_buckets_value hnd hb').1
    rw [this] at hn
    exact ⟨n, (List.mem_filter.mp hn).1, rfl⟩

/-- Witness for C8 on a one-node Topology owning two ranges (given in
descending start order). -/
theorem C8_encode_structure_witness :
    encodeHeaderN [⟨"a:1", "i", [(5, 9), (0, 3)], "", ""⟩] =
        (encodeTopo [⟨"a:1", "i", [(5, 9), (0, 3)], "", ""⟩]).length ∧
      (encodeTopo [⟨"a:1", "i", [(5, 9), (0, 3)], "", ""⟩]).Sorted
        (fun x y => x.start ≤ y.start) :=
  ⟨(C8_encode_structure _ (by decide)).1, (C8_encode_structure _ (by decide)).2.1⟩

/-! ### `find?` characterization of the merge pass -/

/-- The address a node entry names, when it is long enough to name one. -/
def nodeStrsAddr (strs : List String) : Option String :=
  match strs with
  | ip :: port :: _ => some (ip ++ ":" ++ port)
  | _ => none

/-- The half-open range a slot-set entry decodes to. -/
def wireRange (ws : WireSlotSet) : Nat × Nat := (u16 ws.start, u16 (ws.stop + 1))

/-- All slots contributed to one address by a provisional node list, in
order. -/
def slotsOfAddr (prov : List Node) (a : String) : List (Nat × Nat) :=
  (prov.filter (fun n => decide (n.Addr = a))).flatMap (fun n => n.Slots)

/-- `find?` at a different address is untouched by a merge step. -/
theorem find?_updateMerge_ne {acc : List Node} {p : Node} {a : String} (h : p.Addr ≠ a) :
    (updateMerge acc p).find? (fun n => n.Addr = a) = acc.find? (fun n => n.Addr = a) := by
  unfold updateMerge
  by_cases hc : acc.any (fun e => e.Addr = p.Addr)
  · rw [if_pos hc, List.find?_map]
    have hcong : ∀ e : Node,
        ((fun n => decide (n.Addr = a)) ∘ fun e =>
          if e.Addr = p.Addr then { e with Slots := e.Slots ++ p.Slots } else e) e =
          decide (e.Addr = a) := by
      intro e
      by_cases he : e.Addr = p.Addr <;> simp [he]
    rw [find?_pred_congr hcong]
    cases hf : acc.find? (fun n => n.Addr = a) with
    | none => rfl
    | some e =>
      have he : e.Addr = a := by simpa using List.find?_some hf
      have : ¬ (e.Addr = p.Addr) := by
        rw [he]
        exact fun hc' => h hc'.symm
      simp [this]
  · rw [if_neg hc, List.find?_append]
    have : List.find? (fun n => decide (n.Addr = a)) [p] = none := by
      simp [List.find?, h]
    rw [this]
    cases acc.find? (fun n => n.Addr = a) <;> rfl

/-- `find?` at the merged node's address after a merge step. -/
theorem find?_updateMerge_eq (acc : List Node) (p : Node) :
    (updateMerge acc p).find? (fun n => n.Addr = p.Addr) =
      some (match acc.find? (fun n => n.Addr = p.Addr) with
            | some e => { e with Slots := e.Slots ++ p.Slots }
            | none => p) := by
  unfold updateMerge
  by_cases hc : acc.any (fun e => e.Addr = p.Addr)
  · rw [if_pos hc, List.find?_map]
    have hcong : ∀ e : Node,
        ((fun n => decide (n.Addr = p.Addr)) ∘ fun e =>
          if e.Addr = p.Addr then { e with Slots := e.Slots ++ p.Slots } else e) e =
          decide (e.Addr = p.Addr) := by
      intro e
      by_cases he : e.Addr = p.Addr <;> simp [he]
    rw [find?_pred_congr hcong]
    rcases List.any_eq_true.mp hc with ⟨e, he, her⟩
    have hsome : (acc.find? (fun n => n.Addr = p.Addr)).isSome := by
      rw [List.find?_isSome]
      exact ⟨e, he, her⟩
    cases hf : acc.find? (fun n => n.Addr = p.Addr) with
    | none => rw [hf] at hsome; cases hsome
    | some e0 =>
      have he0 : e0.Addr = p.Addr := by simpa using List.find?_some hf
      simp [he0]
  · rw [if_neg hc, List.find?_append]
    have hnone : acc.find? (fun n => n.Addr = p.Addr) = none := by
      rw [List.find?_eq_none]
      intro e he her
      exact hc (List.any_eq_true.mpr ⟨e, he, her⟩)
    rw [hnone]
    simp [List.find?]

/-- `find?` characterization of the whole merge pass: identity fields come
from the first provisional node of an address, slots are the concatenation
of all its provisional nodes' slots in order. -/
theorem find?_foldl_updateMerge :
    ∀ (prov acc : List Node) (a : String),
      (prov.foldl updateMerge acc).find? (fun n => n.Addr = a) =
        match acc.find? (fun n => n.Addr = a) with
        | some e => some { e with Slots := e.Slots ++ slotsOfAddr prov a }
        | none =>
          match prov.filter (fun n => decide (n.Addr = a)) with
          | [] => none
          | p :: ps => some { p with Slots := p.Slots ++ ps.flatMap (fun n => n.Slots) }
  | [], acc, a => by
    rw [List.foldl_nil]
    cases hf : acc.find? (fun n => n.Addr = a) with
    | none => rfl
    | some e => simp [slotsOfAddr]
  | q :: rest, acc, a => by
    rw [List.foldl_cons]
    have htl := find?_foldl_updateMerge rest (updateMerge acc q) a
    by_cases hq : q.Addr = a
    · subst hq
      rw [htl, find?_updateMerge_eq]
      rw [show slotsOfAddr (q :: rest) q.Addr = q.Slots ++ slotsOfAddr rest q.Addr by
        unfold slotsOfAddr
        rw [List.filter_cons_of_pos (by simp)]
        rfl]
      cases hf : acc.find? (fun n => n.Addr = q.Addr) with
      | some e => simp [List.append_assoc]
      | none =>
        rw [List.filter_cons_of_pos (by simp)]
        rfl
    · rw [htl, find?_updateMerge_ne hq]
      rw [show slotsOfAddr (q :: rest) a = slotsOfAddr rest a by
        unfold slotsOfAddr
        rw [List.filter_cons_of_neg (by simpa using hq)]]
      rw [List.filter_cons_of_neg (by simpa using hq)]

/-- Address list after one merge step. -/
theorem addrs_updateMerge (acc : List Node) (p : Node) :
    (updateMerge acc p).map Node.Addr =
      if p.Addr ∈ acc.map Node.Addr then acc.map Node.Addr
      else acc.map Node.Addr ++ [p.Addr] := by
  unfold updateMerge
  by_cases hc : acc.any (fun e => e.Addr = p.Addr)
  · rw [if_pos hc, if_pos]
    · rw [List.map_map]
      refine List.map_congr_left ?_
      intro e _
      by_cases he : e.Addr = p.Addr <;> simp [he]
    · rcases List.any_eq_true.mp hc with ⟨e, he, her⟩
      have : e.Addr = p.Addr := by simpa using her
      exact this ▸ List.mem_map_of_mem Node.Addr he
  · rw [if_neg hc, if_neg]
    · simp
    · intro hr
      rcases List.mem_map.mp hr with ⟨e, he, her⟩
      exact hc (List.any_eq_true.mpr ⟨e, he, by simpa using her⟩)

/-- Address membership across the merge pass. -/
theorem mem_addrs_foldl_updateMerge :
    ∀ (prov acc : List Node) (a : String),
      a ∈ (prov.foldl updateMerge acc).map Node.Addr ↔
        a ∈ acc.map Node.Addr ∨ a ∈ prov.map Node.Addr
  | [], acc, a => by simp
  | q :: rest, acc, a => by
    rw [List.foldl_cons, mem_addrs_foldl_updateMerge rest _ a, addrs_updateMerge]
    by_cases hq : q.Addr ∈ acc.map Node.Addr
    · rw [if_pos hq]
      simp only [List.map_cons, List.mem_cons]
      constructor
      · rintro (h | h)
        · exact Or.inl h
        · exact Or.inr (Or.inr h)
      · rintro (h | rfl | h)
        · exact Or.inl h
        · exact Or.inl hq
        · exact Or.inr h
    · rw [if_neg hq]
      simp only [List.mem_append, List.mem_singleton, List.map_cons, List.mem_cons]
      tauto

/-- The merge pass keeps addresses pairwise distinct. -/
theorem nodup_addrs_foldl_updateMerge :
    ∀ (prov acc : List Node), (acc.map Node.Addr).Nodup →
      ((prov.foldl updateMerge acc).map Node.Addr).Nodup
  | [], _, h => h
  | q :: rest, acc, h => by
    rw [List.foldl_cons]
    refine nodup_addrs_foldl_updateMerge rest _ ?_
    rw [addrs_updateMerge]
    by_cases hq : q.Addr ∈ acc.map Node.Addr
    · rw [if_pos hq]
      exact h
    · rw [if_neg hq]
      exact List.Nodup.append h (List.nodup_singleton _) (by simpa using hq)

/-- Every node entry of a successfully decoded slot-set entry produces a
provisional node with exactly the address it names. -/
theorem decodeSlotSetNodes_addrs {slots : Nat × Nat} :
    ∀ {master : Option Node} {l : List (List String)} {ns : List Node},
      decodeSlotSetNodes slots master l = .ok ns →
      ∀ strs ∈ l, ∃ p ∈ ns, nodeStrsAddr strs = some p.Addr
  | _, [], _, _ => by
    intro strs hs
    cases hs
  | master, strs0 :: rest, ns, h => by
    intro strs hs
    simp only [decodeSlotSetNodes, bind, Except.bind] at h
    cases hd : decodeNodeStrs slots master strs0 with
    | error e => rw [hd] at h; dsimp only at h; cases h
    | ok n0 =>
      rw [hd] at h; dsimp only at h
      cases htl : decodeSlotSetNodes slots (some (master.getD n0)) rest with
      | error e => rw [htl] at h; dsimp only at h; cases h
      | ok tl =>
        rw [htl] at h; dsimp only at h
        simp only [Except.ok.injEq] at h
        subst h
        rcases List.mem_cons.mp hs with rfl | hs
        · rcases decodeNodeStrs_ok hd with ⟨ip, port, r, hshape, haddr, _⟩
          refine ⟨n0, List.mem_cons_self _ _, ?_⟩
          rw [hshape]
          unfold nodeStrsAddr
          rw [haddr]
        · rcases decodeSlotSetNodes_addrs htl strs hs with ⟨p, hp, hps⟩
          exact ⟨p, List.mem_cons_of_mem _ hp, hps⟩

/-- Every node entry in the wire input yields a provisional node with its
address, carrying exactly its entry's range. -/
theorem decodeSlotSets_addr_slots :
    ∀ {w : Wire} {prov : List Node}, decodeSlotSets w = .ok prov →
      ∀ ws ∈ w, ∀ strs ∈ ws.nodes, ∀ a, nodeStrsAddr strs = some a →
        ∃ p ∈ prov, p.Addr = a ∧ p.Slots = [wireRange ws]
  | [], _, _ => by
    intro ws hws
    cases hws
  | w0 :: w, prov, h => by
    intro ws hws strs hstrs a ha
    rcases decodeSlotSets_ok_cons h with ⟨ns, rest, hd, htl, rfl⟩
    rcases List.mem_cons.mp hws with rfl | hws
    · rcases decodeSlotSetNodes_addrs hd strs hstrs with ⟨p, hp, hps⟩
      refine ⟨p, List.mem_append_left _ hp, ?_, ?_⟩
      · rw [ha] at hps
        injection hps with hps
        exact hps.symm
      · exact decodeSlotSetNodes_slots hd p hp
    · rcases decodeSlotSets_addr_slots htl ws hws strs hstrs a ha with ⟨p, hp, h1, h2⟩
      exact ⟨p, List.mem_append_right _ hp, h1, h2⟩

/-- C4: if the wire input contains two slot-set entries listing the same
node address, the decoded Topology has exactly one node with that address,
its slot list contains both entries' (decoded) ranges, and its id and
slave-of fields are those of the first provisional node with that address
(the first occurrence in wire order). -/
theorem C4_merge_same_address (w : Wire) (D : Topo) (hD : unmarshalTopo [] w = .ok D)
    (e1 e2 : WireSlotSet) (he1 : e1 ∈ w) (he2 : e2 ∈ w)
    (s1 s2 : List String) (hs1 : s1 ∈ e1.nodes) (hs2 : s2 ∈ e2.nodes)
    (a : String) (ha1 : nodeStrsAddr s1 = some a) (ha2 : nodeStrsAddr s2 = some a) :
    D.countP (fun n => n.Addr = a) = 1 ∧
    ∃ n ∈ D, n.Addr = a ∧ wireRange e1 ∈ n.Slots ∧ wireRange e2 ∈ n.Slots ∧
      ∃ prov p, decodeSlotSets w = .ok prov ∧
        prov.find? (fun q => q.Addr = a) = some p ∧
        n.ID = p.ID ∧ n.SlaveOfAddr = p.SlaveOfAddr ∧ n.SlaveOfID = p.SlaveOfID := by
  unfold unmarshalTopo at hD
  cases hs : decodeSlotSets w with
  | error e => rw [hs] at hD; cases hD
  | ok prov =>
    rw [hs] at hD
    dsimp only at hD
    injection hD with hD
    subst hD
    rcases decodeSlotSets_addr_slots hs e1 he1 s1 hs1 a ha1 with ⟨p1, hp1, hp1a, hp1s⟩
    rcases decodeSlotSets_addr_slots hs e2 he2 s2 hs2 a ha2 with ⟨p2, hp2, hp2a, hp2s⟩
    have hmerge : (mergeNodes prov).find? (fun n => n.Addr = a) =
        match prov.filter (fun n => decide (n.Addr = a)) with
        | [] => none
        | p :: ps => some { p with Slots := p.Slots ++ ps.flatMap (fun n => n.Slots) } :=
      find?_foldl_updateMerge prov [] a
    have hp1f : p1 ∈ prov.filter (fun n => decide (n.Addr = a)) :=
      List.mem_filter.mpr ⟨hp1, by simpa using hp1a⟩
    have hp2f : p2 ∈ prov.filter (fun n => decide (n.Addr = a)) :=
      List.mem_filter.mpr ⟨hp2, by simpa using hp2a⟩
    cases hflt : prov.filter (fun n => decide (n.Addr = a)) with
    | nil =>
      rw [hflt] at hp1f
      cases hp1f
    | cons p ps =>
      rw [hflt] at hmerge
      have hm0mem : ({ p with Slots := p.Slots ++ ps.flatMap (fun n => n.Slots) } : Node) ∈
          mergeNodes prov := List.mem_of_find?_eq_some hmerge
      have hm0slots : ({ p with Slots := p.Slots ++ ps.flatMap (fun n => n.Slots) } : Node).Slots =
          (prov.filter (fun n => decide (n.Addr = a))).flatMap (fun n => n.Slots) := by
        rw [hflt]
        simp
      have hpa : p.Addr = a := by
        have hpmem : p ∈ prov.filter (fun n => decide (n.Addr = a)) := by
          rw [hflt]
          exact List.mem_cons_self _ _
        simpa using (List.mem_filter.mp hpmem).2
      have hr1 : wireRange e1 ∈
          ({ p with Slots := p.Slots ++ ps.flatMap (fun n => n.Slots) } : Node).Slots := by
        rw [hm0slots, List.mem_flatMap]
        refine ⟨p1, hp1f, ?_⟩
        rw [hp1s]
        exact List.mem_singleton_self _
      have hr2 : wireRange e2 ∈
          ({ p with Slots := p.Slots ++ ps.flatMap (fun n => n.Slots) } : Node).Slots := by
        rw [hm0slots, List.mem_flatMap]
        refine ⟨p2, hp2f, ?_⟩
        rw [hp2s]
        exact List.mem_singleton_self _
      constructor
      · show (topoSort ([] ++ mergeNodes prov)).countP (fun n => n.Addr = a) = 1
        have hperm : (topoSort ([] ++ mergeNodes prov)).Perm
            ((mergeNodes prov).map sortNodeSlots) := List.perm_insertionSort _ _
        rw [hperm.countP_eq, List.countP_map]
        have hcount := countP_key_eq_one Node.Addr (mergeNodes prov)
          (nodup_addrs_foldl_updateMerge prov [] (by simp)) a
        have hamem : a ∈ (mergeNodes prov).map Node.Addr := by
          have := (mem_addrs_foldl_updateMerge prov [] a).mpr
            (Or.inr (hp1a ▸ List.mem_map_of_mem Node.Addr hp1))
          exact this
        exact hcount hamem
      · refine ⟨sortNodeSlots { p with Slots := p.Slots ++ ps.flatMap (fun n => n.Slots) },
          ?_, hpa, ?_, ?_, prov, p, rfl, ?_, rfl, rfl, rfl⟩
        · show _ ∈ topoSort ([] ++ mergeNodes prov)
          exact (List.mem_insertionSort nodeLe).mpr (List.mem_map_of_mem sortNodeSlots hm0mem)
        · show wireRange e1 ∈ sortSlots _
          exact (List.mem_insertionSort slotLe).mpr hr1
        · show wireRange e2 ∈ sortSlots _
          exact (List.mem_insertionSort slotLe).mpr hr2
        · rw [find?_eq_head?_filter_pred, hflt]
          rfl

/-- Witness for C4 on a wire input with the address `h:1` in two entries. -/
theorem C4_merge_same_address_witness :
    ([⟨"h:1", "idA", sortSlots [(10, 21), (0, 6)], "", ""⟩,
      ⟨"h:2", "idB", [(10, 21)], "h:1", "idA"⟩] : Topo).countP (fun n => n.Addr = "h:1") = 1 :=
  (C4_merge_same_address
    [⟨10, 20, [["h", "1", "idA"], ["h", "2", "idB"]]⟩, ⟨0, 5, [["h", "1", "idZ"]]⟩]
    _ rfl
    ⟨10, 20, [["h", "1", "idA"], ["h", "2", "idB"]]⟩ ⟨0, 5, [["h", "1", "idZ"]]⟩
    (List.mem_cons_self _ _) (List.mem_cons_of_mem _ (List.mem_cons_self _ _))
    ["h", "1", "idA"] ["h", "1", "idZ"]
    (List.mem_cons_self _ _) (List.mem_cons_self _ _)
    "h:1" rfl rfl).1

/-! ### Round-trip infrastructure -/

instance : IsTotal (Nat × Nat) slotLe := ⟨fun s t => Nat.le_total s.1 t.1⟩

instance : IsTrans (Nat × Nat) slotLe := ⟨fun _ _ _ h1 h2 => Nat.le_trans h1 h2⟩

/-- Strict start order on ranges, used to compare sorted slot lists. -/
def slotLt (s t : Nat × Nat) : Prop := s.1 < t.1

instance : DecidableRel slotLt := fun s t => inferInstanceAs (Decidable (s.1 < t.1))

instance : IsAntisymm (Nat × Nat) slotLt :=
  ⟨fun _ _ h1 h2 => absurd h2 (Nat.lt_asymm h1)⟩

/-- An address that splits into host and port and joins back to itself.
`net.SplitHostPort` guarantees this for every `host:port` address with
exactly one colon and no brackets. -/
def joinSplit (s : String) : Prop :=
  (splitHostPort s).1 ++ ":" ++ (splitHostPort s).2 = s

/-- A successful last-colon split reassembles the original characters. -/
theorem splitLastColon_join :
    ∀ {cs : List Char} {h p : List Char}, splitLastColon cs = some (h, p) →
      cs = h ++ ':' :: p
  | [], _, _, hc => by cases hc
  | c :: rest, h, p, hc => by
    unfold splitLastColon at hc
    cases hr : splitLastColon rest with
    | some hp =>
      obtain ⟨h1, p1⟩ := hp
      rw [hr] at hc
      dsimp only at hc
      injection hc with hc
      have hrest := splitLastColon_join hr
      rw [show h = c :: h1 from congrArg Prod.fst hc.symm,
        show p = p1 from congrArg Prod.snd hc.symm]
      rw [List.cons_append, ← hrest]
    | none =>
      rw [hr] at hc
      dsimp only at hc
      by_cases hcc : c = ':'
      · rw [if_pos hcc] at hc
        injection hc with hc
        rw [show h = [] from congrArg Prod.fst hc.symm,
          show p = rest from congrArg Prod.snd hc.symm, hcc]
        rfl
      · rw [if_neg hcc] at hc
        cases hc

/-- A character list containing a colon splits. -/
theorem splitLastColon_isSome :
    ∀ {cs : List Char}, ':' ∈ cs → (splitLastColon cs).isSome
  | [], h => absurd h (by simp)
  | c :: rest, h => by
    unfold splitLastColon
    cases hr : splitLastColon rest with
    | some hp => rfl
    | none =>
      have hc : c = ':' := by
        rcases List.mem_cons.mp h with rfl | h'
        · rfl
        · have := splitLastColon_isSome h'
          rw [hr] at this
          cases this
      rw [if_pos hc]
      rfl

/-- Any address containing a colon splits and joins back to itself in the
model. -/
theorem joinSplit_of_colon {s : String} (h : ':' ∈ s.data) : joinSplit s := by
  unfold joinSplit splitHostPort
  cases hsp : splitLastColon s.data with
  | none =>
    have := splitLastColon_isSome h
    rw [hsp] at this
    cases this
  | some hp =>
    obtain ⟨hl, pl⟩ := hp
    have hdata := splitLastColon_join hsp
    dsimp only
    apply String.ext
    rw [String.data_append, String.data_append]
    rw [show (String.mk hl).data = hl from rfl, show (String.mk pl).data = pl from rfl,
      show (":" : String).data = [':'] from rfl]
    rw [hdata]
    simp

/-- The minimal-start range of a node (head of its sorted slot list). -/
def minRange (n : Node) : Nat × Nat := (sortSlots n.Slots).headD (0, 0)

/-- The sorted slot list is a permutation of the original. -/
theorem sortSlots_perm (l : List (Nat × Nat)) : (sortSlots l).Perm l :=
  List.perm_insertionSort slotLe l

/-- The sorted slot list is sorted by start. -/
theorem sortSlots_sorted (l : List (Nat × Nat)) : (sortSlots l).Sorted slotLe :=
  List.sorted_insertionSort slotLe l

/-- The minimal range of a node with slots is one of its slots. -/
theorem minRange_mem {n : Node} (h : n.Slots ≠ []) : minRange n ∈ n.Slots := by
  have hne : sortSlots n.Slots ≠ [] := sortSlots_ne_nil h
  have : minRange n ∈ sortSlots n.Slots := by
    unfold minRange
    cases hs : sortSlots n.Slots with
    | nil => exact absurd hs hne
    | cons x xs => exact List.mem_cons_self _ _
  exact (sortSlots_perm n.Slots).mem_iff.mp this

/-- The minimal range starts no later than any slot of the node. -/
theorem minRange_min {n : Node} (h : n.Slots ≠ []) :
    ∀ r ∈ n.Slots, (minRange n).1 ≤ r.1 := by
  intro r hr
  have hr' : r ∈ sortSlots n.Slots := (sortSlots_perm n.Slots).mem_iff.mpr hr
  have hs := sortSlots_sorted n.Slots
  unfold minRange
  cases hsl : sortSlots n.Slots with
  | nil => exact absurd hsl (sortSlots_ne_nil h)
  | cons x xs =>
    rw [hsl] at hr' hs
    rcases List.mem_cons.mp hr' with rfl | hr'
    · simp
    · exact (List.sorted_cons.mp hs).1 r hr'

/-- Within one node's distinct-start slot list, a slot with the minimal
start is the minimal range itself. -/
theorem eq_minRange_of_start_eq {n : Node} (hne : n.Slots ≠ [])
    (hnd : n.Slots.Pairwise (fun r s => r.1 ≠ s.1)) {r : Nat × Nat} (hr : r ∈ n.Slots)
    (hstart : r.1 = (minRange n).1) : r = minRange n := by
  by_contra hc
  exact (hnd.forall (fun _ _ h => fun he => h he.symm) hr (minRange_mem hne) hc) hstart

/-- Distinct starts make the slot list duplicate-free. -/
theorem nodup_of_pairwise_start_ne {l : List (Nat × Nat)}
    (h : l.Pairwise (fun r s => r.1 ≠ s.1)) : l.Nodup :=
  h.imp (fun hne he => hne (congrArg Prod.fst he))

/-- The provisional nodes one encoded bucket decodes back to: the first
owner as master, the rest as its replicas, each carrying the bucket's
range. -/
def provOfBucket (b : (Nat × Nat) × List Node) : List Node :=
  match b.2 with
  | [] => []
  | m :: rest =>
    { Addr := m.Addr, ID := m.ID, Slots := [b.1], SlaveOfAddr := "", SlaveOfID := "" } ::
      rest.map (fun q =>
        { Addr := q.Addr, ID := q.ID, Slots := [b.1], SlaveOfAddr := m.Addr, SlaveOfID := m.ID })

/-- Decoding an emitted node entry reconstructs address and id exactly,
when the address splits and rejoins. -/
theorem decodeNodeStrs_nodeWireEntry {slots : Nat × Nat} {q : Node} {master : Option Node}
    (hre : joinSplit q.Addr) :
    decodeNodeStrs slots master (nodeWireEntry q) =
      .ok (match master with
           | none =>
             { Addr := q.Addr, ID := q.ID, Slots := [slots], SlaveOfAddr := "", SlaveOfID := "" }
           | some m =>
             { Addr := q.Addr, ID := q.ID, Slots := [slots],
               SlaveOfAddr := m.Addr, SlaveOfID := m.ID }) := by
  have hre' : (splitHostPort q.Addr).1 ++ ":" ++ (splitHostPort q.Addr).2 = q.Addr := hre
  have hshape : nodeWireEntry q =
      (splitHostPort q.Addr).1 :: (splitHostPort q.Addr).2 ::
        (if q.ID = "" then [] else [q.ID]) := by
    unfold nodeWireEntry
    simp
  have hhd : ((if q.ID = "" then ([] : List String) else [q.ID]).headD "") = q.ID := by
    by_cases hid : q.ID = ""
    · rw [if_pos hid, hid]
      rfl
    · rw [if_neg hid]
      rfl
  rw [hshape]
  cases master with
  | none =>
    show Except.ok ({ Addr := (splitHostPort q.Addr).1 ++ ":" ++ (splitHostPort q.Addr).2
                      ID := (if q.ID = "" then ([] : List String) else [q.ID]).headD ""
                      Slots := [slots]
                      SlaveOfAddr := ""
                      SlaveOfID := "" } : Node) = _
    rw [hhd, hre']
  | some m =>
    show Except.ok ({ Addr := (splitHostPort q.Addr).1 ++ ":" ++ (splitHostPort q.Addr).2
                      ID := (if q.ID = "" then ([] : List String) else [q.ID]).headD ""
                      Slots := [slots]
                      SlaveOfAddr := m.Addr
                      SlaveOfID := m.ID } : Node) = _
    rw [hhd, hre']

/-- Decoding the emitted replica entries of one bucket. -/
theorem decodeSlotSetNodes_map_entries {slots : Nat × Nat} {m0 : Node} :
    ∀ {l : List Node}, (∀ q ∈ l, joinSplit q.Addr) →
      decodeSlotSetNodes slots (some m0) (l.map nodeWireEntry) =
        .ok (l.map (fun q =>
          { Addr := q.Addr, ID := q.ID, Slots := [slots],
            SlaveOfAddr := m0.Addr, SlaveOfID := m0.ID }))
  | [], _ => rfl
  | q :: l, hre => by
    rw [List.map_cons, List.map_cons]
    have hd : decodeNodeStrs slots (some m0) (nodeWireEntry q) =
        .ok { Addr := q.Addr
              ID := q.ID
              Slots := [slots]
              SlaveOfAddr := m0.Addr
              SlaveOfID := m0.ID } :=
      decodeNodeStrs_nodeWireEntry (hre q (List.mem_cons_self _ _))
    have htl : decodeSlotSetNodes slots (some m0) (l.map nodeWireEntry) =
        .ok (l.map (fun q => { Addr := q.Addr
                               ID := q.ID
                               Slots := [slots]
                               SlaveOfAddr := m0.Addr
                               SlaveOfID := m0.ID })) :=
      decodeSlotSetNodes_map_entries (fun q' hq' => hre q' (List.mem_cons_of_mem _ hq'))
    simp only [decodeSlotSetNodes, bind, Except.bind]
    rw [hd]
    dsimp only [Option.getD]
    rw [htl]

/-- Decoding one emitted bucket yields its provisional nodes. -/
theorem decodeSlotSet_encodeSlotSet {b : (Nat × Nat) × List Node}
    (hre : ∀ q ∈ b.2, joinSplit q.Addr) (hwf1 : b.1.1 < 65536) (hwf2 : b.1.2 < 65536) :
    decodeSlotSet (encodeSlotSet b) = .ok (provOfBucket b) := by
  show decodeSlotSetNodes (u16 b.1.1, u16 (u16 (b.1.2 + 65535) + 1)) none
      (b.2.map nodeWireEntry) = .ok (provOfBucket b)
  rw [u16_eq_of_lt hwf1, u16_dec_inc hwf2]
  unfold provOfBucket
  cases hb2 : b.2 with
  | nil => rfl
  | cons m rest =>
    rw [List.map_cons]
    have hd : decodeNodeStrs ((b.1.1, b.1.2) : Nat × Nat) none (nodeWireEntry m) =
        .ok { Addr := m.Addr
              ID := m.ID
              Slots := [((b.1.1, b.1.2) : Nat × Nat)]
              SlaveOfAddr := ""
              SlaveOfID := "" } :=
      decodeNodeStrs_nodeWireEntry (hre m (hb2 ▸ List.mem_cons_self _ _))
    simp only [decodeSlotSetNodes, bind, Except.bind]
    rw [hd]
    dsimp only [Option.getD]
    rw [decodeSlotSetNodes_map_entries
      (fun q hq => hre q (hb2 ▸ List.mem_cons_of_mem _ hq))]

/-- Decoding a list of emitted buckets concatenates their provisional
nodes. -/
theorem decodeSlotSets_map_encode :
    ∀ (bs : List ((Nat × Nat) × List Node)),
      (∀ b ∈ bs, (∀ q ∈ b.2, joinSplit q.Addr) ∧ b.1.1 < 65536 ∧ b.1.2 < 65536) →
      decodeSlotSets (bs.map encodeSlotSet) = .ok (bs.flatMap provOfBucket)
  | [], _ => rfl
  | b :: bs, h => by
    rw [List.map_cons]
    have hd := decodeSlotSet_encodeSlotSet (h b (List.mem_cons_self _ _)).1
      (h b (List.mem_cons_self _ _)).2.1 (h b (List.mem_cons_self _ _)).2.2
    have htl := decodeSlotSets_map_encode bs (fun b' hb' => h b' (List.mem_cons_of_mem _ hb'))
    simp only [decodeSlotSets, bind, Except.bind]
    rw [hd]
    dsimp only
    rw [htl]
    dsimp only
    rw [List.flatMap_cons]

/-- `find?` over a concatenation of blocks finds its match inside the first
block that contains one. -/
theorem find?_flatMap_blocks {α β : Type} (p : β → Bool) (f : α → List β) :
    ∀ l : List α,
      (l.flatMap f).find? p =
        match l.find? (fun x => (f x).any p) with
        | none => none
        | some x => (f x).find? p
  | [] => rfl
  | x :: l => by
    rw [List.flatMap_cons, List.find?_append]
    by_cases hx : (f x).any p
    · rw [List.find?_cons_of_pos _ (by simpa using hx)]
      have hsome : ((f x).find? p).isSome := by
        rw [List.find?_isSome]
        simpa [List.any_eq_true] using hx
      rw [Option.or_of_isSome hsome]
    · rw [List.find?_cons_of_neg _ (by simpa using hx)]
      have hnone : (f x).find? p = none := by
        rw [List.find?_eq_none]
        intro b hb hp
        exact hx (List.any_eq_true.mpr ⟨b, hb, hp⟩)
      rw [hnone, ← find?_flatMap_blocks p f l]
      rfl

/-- The provisional nodes of a bucket carry the owners' addresses in
order. -/
theorem provOfBucket_addrs (b : (Nat × Nat) × List Node) :
    (provOfBucket b).map Node.Addr = b.2.map Node.Addr := by
  unfold provOfBucket
  cases b.2 with
  | nil => rfl
  | cons m rest =>
    rw [List.map_cons, List.map_cons, List.map_map]
    rfl

/-- Every provisional node of a bucket carries exactly the bucket's
range. -/
theorem provOfBucket_slots {b : (Nat × Nat) × List Node} {q : Node}
    (hq : q ∈ provOfBucket b) : q.Slots = [b.1] := by
  unfold provOfBucket at hq
  cases hb : b.2 with
  | nil => rw [hb] at hq; cases hq
  | cons m rest =>
    rw [hb] at hq
    rcases List.mem_cons.mp hq with rfl | hq
    · rfl
    · rcases List.mem_map.mp hq with ⟨o, _, rfl⟩
      rfl

/-- At most one element of a duplicate-free-keys list carries any given
key. -/
theorem countP_key_le_one {α κ : Type} [DecidableEq κ] (key : α → κ) :
    ∀ (l : List α), (l.map key).Nodup → ∀ a : κ, l.countP (fun x => key x = a) ≤ 1
  | [], _, _ => by simp
  | x :: l, hnd, a => by
    rw [List.map_cons] at hnd
    have hnd' := List.nodup_cons.mp hnd
    rw [List.countP_cons]
    by_cases hx : key x = a
    · have hrest : l.countP (fun x => key x = a) = 0 := by
        rw [List.countP_eq_zero]
        intro y hy hc
        apply hnd'.1
        rw [hx, ← show key y = a by simpa using hc]
        exact List.mem_map_of_mem key hy
      simp [hrest, hx]
    · have := countP_key_le_one key l hnd'.2 a
      simp only [hx]
      simpa using this

/-- Collecting an optional singleton per element is filtering the mapped
list. -/
theorem flatMap_if_singleton {α β : Type} (h : α → β) (q : β → Bool) :
    ∀ l : List α,
      (l.flatMap (fun x => if q (h x) then [h x] else [])) = (l.map h).filter q
  | [] => rfl
  | x :: l => by
    rw [List.flatMap_cons, List.map_cons, flatMap_if_singleton h q l]
    by_cases hx : q (h x)
    · rw [if_pos hx, List.filter_cons_of_pos hx]
      rfl
    · rw [if_neg hx, List.filter_cons_of_neg hx]
      rfl

/-- Nodes of a Topology with duplicate-free addresses are determined by
their address. -/
theorem addr_inj {T : Topo} (hA : (T.map Node.Addr).Nodup) {x y : Node}
    (hx : x ∈ T) (hy : y ∈ T) (hxy : x.Addr = y.Addr) : x = y :=
  List.inj_on_of_nodup_map hA hx hy hxy

/-- The sorted bucket keys are pairwise distinct. -/
theorem sortBuckets_keys_nodup (T : Topo) :
    ((sortBuckets (buckets T)).map Prod.fst).Nodup :=
  (((sortBuckets_perm (buckets T)).map Prod.fst).nodup_iff).mpr
    (nodup_keys_buckets_fold T [] (by simp))

/-- A range is a sorted bucket key exactly when some node owns it. -/
theorem mem_sortBuckets_keys (T : Topo) (r : Nat × Nat) :
    r ∈ (sortBuckets (buckets T)).map Prod.fst ↔ ∃ n ∈ T, r ∈ n.Slots := by
  rw [((sortBuckets_perm (buckets T)).map Prod.fst).mem_iff]
  have hm : r ∈ (buckets T).map Prod.fst ↔
      r ∈ ([] : List ((Nat × Nat) × List Node)).map Prod.fst ∨ ∃ n ∈ T, r ∈ n.Slots :=
    mem_keys_buckets_fold T [] r
  rw [hm]
  simp

/-- Every sorted bucket holds exactly the owners of its range, in topology
order. -/
theorem sortBuckets_value {T : Topo} (hnd : ∀ n ∈ T, n.Slots.Nodup)
    {b : (Nat × Nat) × List Node} (hb : b ∈ sortBuckets (buckets T)) :
    b.2 = T.filter (fun n => decide (b.1 ∈ n.Slots)) :=
  (mem_buckets_value hnd ((sortBuckets_perm (buckets T)).mem_iff.mp hb)).1

/-- A bucket's provisional nodes mention an address exactly when the
corresponding node owns the bucket's range. -/
theorem provOfBucket_any_addr {T : Topo} (hA : (T.map Node.Addr).Nodup)
    (hnd : ∀ n ∈ T, n.Slots.Nodup) {n : Node} (hn : n ∈ T)
    {b : (Nat × Nat) × List Node} (hb : b ∈ sortBuckets (buckets T)) :
    (provOfBucket b).any (fun q => q.Addr = n.Addr) = true ↔ b.1 ∈ n.Slots := by
  rw [List.any_eq_true]
  constructor
  · rintro ⟨q, hq, hqa⟩
    have hqa' : q.Addr = n.Addr := by simpa using hqa
    have hmem : q.Addr ∈ b.2.map Node.Addr := by
      rw [← provOfBucket_addrs]
      exact List.mem_map_of_mem Node.Addr hq
    rcases List.mem_map.mp hmem with ⟨o, ho, hoa⟩
    rw [sortBuckets_value hnd hb] at ho
    have hoT := (List.mem_filter.mp ho).1
    have hobs := (List.mem_filter.mp ho).2
    have hoeq : o = n := addr_inj hA hoT hn (by rw [hoa, hqa'])
    subst hoeq
    simpa using hobs
  · intro hbn
    have hnf : n ∈ b.2 := by
      rw [sortBuckets_value hnd hb]
      exact List.mem_filter.mpr ⟨hn, by simpa using hbn⟩
    have hmem : n.Addr ∈ (provOfBucket b).map Node.Addr := by
      rw [provOfBucket_addrs]
      exact List.mem_map_of_mem Node.Addr hnf
    rcases List.mem_map.mp hmem with ⟨q, hq, hqa⟩
    exact ⟨q, hq, by simpa using hqa⟩

/-- The first provisional node carrying a node's address comes from the
bucket of its minimal-start range: it keeps the node's address and id, and
its slave-of fields are empty when the node is the topology's first owner
of that range, and the first owner's address and id otherwise. -/
theorem prov_find?_addr {T : Topo} (hA : (T.map Node.Addr).Nodup)
    (hsl : ∀ n' ∈ T, n'.Slots ≠ [] ∧ n'.Slots.Pairwise (fun r s => r.1 ≠ s.1))
    {n : Node} (hn : n ∈ T) :
    ∃ m, T.find? (fun m' => decide (minRange n ∈ m'.Slots)) = some m ∧ m ∈ T ∧
      minRange n ∈ m.Slots ∧
      ((sortBuckets (buckets T)).flatMap provOfBucket).find? (fun q => q.Addr = n.Addr) =
        some { Addr := n.Addr, ID := n.ID, Slots := [minRange n]
               SlaveOfAddr := if m = n then "" else m.Addr
               SlaveOfID := if m = n then "" else m.ID } := by
  have hnd : ∀ n' ∈ T, n'.Slots.Nodup := fun n' hn' =>
    nodup_of_pairwise_start_ne (hsl n' hn').2
  have hne := (hsl n hn).1
  have hpw := (hsl n hn).2
  have hmin_mem : minRange n ∈ (sortBuckets (buckets T)).map Prod.fst :=
    (mem_sortBuckets_keys T (minRange n)).mpr ⟨n, hn, minRange_mem hne⟩
  rcases List.mem_map.mp hmin_mem with ⟨bmin, hbmin, hbmin1⟩
  rw [find?_flatMap_blocks]
  have hany_min : (provOfBucket bmin).any (fun q => q.Addr = n.Addr) = true :=
    (provOfBucket_any_addr hA hnd hn hbmin).mpr (hbmin1 ▸ minRange_mem hne)
  have hsomeb : ((sortBuckets (buckets T)).find?
      (fun b => (provOfBucket b).any (fun q => q.Addr = n.Addr))).isSome := by
    rw [List.find?_isSome]
    exact ⟨bmin, hbmin, hany_min⟩
  cases hfb : (sortBuckets (buckets T)).find?
      (fun b => (provOfBucket b).any (fun q => q.Addr = n.Addr)) with
  | none => rw [hfb] at hsomeb; cases hsomeb
  | some bstar =>
    have hbstar_mem : bstar ∈ sortBuckets (buckets T) := List.mem_of_find?_eq_some hfb
    have hbstar_any : (provOfBucket bstar).any (fun q => q.Addr = n.Addr) = true := by
      simpa using List.find?_some hfb
    have hbstar_in : bstar.1 ∈ n.Slots :=
      (provOfBucket_any_addr hA hnd hn hbstar_mem).mp hbstar_any
    have hkey : bstar.1 = minRange n := by
      rcases List.find?_eq_some.mp hfb with ⟨hpred, as, rest, hsplit, hbefore⟩
      have hbmin_tail : bmin ∈ bstar :: rest := by
        rcases List.mem_append.mp (hsplit ▸ hbmin) with h | h
        · exact absurd hany_min (by simpa using hbefore bmin h)
        · exact h
      have hle : bstar.1.1 ≤ bmin.1.1 := by
        have hsorted : (sortBuckets (buckets T)).Sorted bucketLe :=
          sortBuckets_sorted (buckets T)
        rw [hsplit] at hsorted
        have hrest := (List.pairwise_append.mp hsorted).2.1
        rcases List.mem_cons.mp hbmin_tail with rfl | h
        · exact le_refl _
        · exact (List.sorted_cons.mp hrest).1 bmin h
      rw [hbmin1] at hle
      have h1 : (minRange n).1 ≤ bstar.1.1 := minRange_min hne bstar.1 hbstar_in
      exact eq_minRange_of_start_eq hne hpw hbstar_in (Nat.le_antisymm hle h1)
    have hval : bstar.2 = T.filter (fun n' => decide (bstar.1 ∈ n'.Slots)) :=
      sortBuckets_value hnd hbstar_mem
    have hnmem : n ∈ bstar.2 := by
      rw [hval]
      exact List.mem_filter.mpr ⟨hn, by simpa using hbstar_in⟩
    have hhead : T.find? (fun m' => decide (bstar.1 ∈ m'.Slots)) = bstar.2.head? := by
      rw [find?_eq_head?_filter_pred, hval]
    cases hb2 : bstar.2 with
    | nil => rw [hb2] at hnmem; cases hnmem
    | cons mstar os =>
      have hmT : mstar ∈ T := by
        have hmm : mstar ∈ bstar.2 := hb2 ▸ List.mem_cons_self _ _
        rw [hval] at hmm
        exact (List.mem_filter.mp hmm).1
      have hmslots : bstar.1 ∈ mstar.Slots := by
        have hmm : mstar ∈ bstar.2 := hb2 ▸ List.mem_cons_self _ _
        rw [hval] at hmm
        simpa using (List.mem_filter.mp hmm).2
      refine ⟨mstar, ?_, hmT, hkey ▸ hmslots, ?_⟩
      · rw [← hkey, hhead, hb2]
        rfl
      · dsimp only
        have hpb : provOfBucket bstar =
            ({ Addr := mstar.Addr, ID := mstar.ID, Slots := [bstar.1]
               SlaveOfAddr := "", SlaveOfID := "" } : Node) ::
              os.map (fun q => { Addr := q.Addr, ID := q.ID, Slots := [bstar.1]
                                 SlaveOfAddr := mstar.Addr, SlaveOfID := mstar.ID }) := by
          unfold provOfBucket
          rw [hb2]
        rw [hpb]
        by_cases hmn : mstar = n
        · subst hmn
          rw [List.find?_cons_of_pos _ (by simp)]
          rw [if_pos rfl, if_pos rfl, hkey]
        · have hma : mstar.Addr ≠ n.Addr := fun hc => hmn (addr_inj hA hmT hn hc)
          rw [List.find?_cons_of_neg _ (by simpa using hma)]
          rw [List.find?_map]
          have hcong : ∀ q : Node,
              ((fun q' : Node => decide (q'.Addr = n.Addr)) ∘ fun q =>
                ({ Addr := q.Addr, ID := q.ID, Slots := [bstar.1]
                   SlaveOfAddr := mstar.Addr, SlaveOfID := mstar.ID } : Node)) q =
                decide (q.Addr = n.Addr) := fun q => rfl
          rw [find?_pred_congr hcong]
          have hnos : n ∈ os := by
            rcases List.mem_cons.mp (hb2 ▸ hnmem) with h | h
            · exact absurd h.symm hmn
            · exact h
          have hosT : ∀ q ∈ os, q ∈ T := by
            intro q hq
            have hqm : q ∈ bstar.2 := hb2 ▸ List.mem_cons_of_mem _ hq
            rw [hval] at hqm
            exact (List.mem_filter.mp hqm).1
          have hfos : os.find? (fun q => q.Addr = n.Addr) = some n := by
            cases hf : os.find? (fun q => q.Addr = n.Addr) with
            | none =>
              rw [List.find?_eq_none] at hf
              exact absurd (show ¬ (decide (n.Addr = n.Addr) = true) from hf n hnos) (by simp)
            | some q =>
              have hqm := List.mem_of_find?_eq_some hf
              have hqa : q.Addr = n.Addr := by simpa using List.find?_some hf
              rw [addr_inj hA (hosT q hqm) hn hqa]
          rw [hfos, if_neg hmn, if_neg hmn, hkey]
          rfl

/-- `flatMap` only depends on the function's behaviour on the members. -/
theorem flatMap_congr_mem {α β : Type} {f g : α → List β} :
    ∀ {l : List α}, (∀ x ∈ l, f x = g x) → l.flatMap f = l.flatMap g
  | [], _ => rfl
  | x :: l, h => by
    rw [List.flatMap_cons, List.flatMap_cons, h x (List.mem_cons_self _ _),
      flatMap_congr_mem (fun y hy => h y (List.mem_cons_of_mem _ hy))]

/-- Within one bucket, the slots contributed to one address are the
bucket's range if the node owns it, and nothing otherwise. -/
theorem provOfBucket_filter_slots {T : Topo} (hA : (T.map Node.Addr).Nodup)
    (hnd : ∀ n' ∈ T, n'.Slots.Nodup) {n : Node} (hn : n ∈ T)
    {b : (Nat × Nat) × List Node} (hb : b ∈ sortBuckets (buckets T)) :
    ((provOfBucket b).filter (fun q => decide (q.Addr = n.Addr))).flatMap
        (fun q => q.Slots) =
      if decide (b.1 ∈ n.Slots) = true then [b.1] else [] := by
  have hcmap : (provOfBucket b).countP (fun q => decide (q.Addr = n.Addr)) =
      b.2.countP (fun q => decide (q.Addr = n.Addr)) := by
    have e1 := List.countP_map (fun s => decide (s = n.Addr)) Node.Addr (provOfBucket b)
    have e2 := List.countP_map (fun s => decide (s = n.Addr)) Node.Addr b.2
    rw [provOfBucket_addrs] at e1
    exact e1.symm.trans e2
  have hcount : (provOfBucket b).countP (fun q => decide (q.Addr = n.Addr)) ≤ 1 := by
    rw [hcmap, sortBuckets_value hnd hb]
    exact Nat.le_trans ((List.filter_sublist T).countP_le _) (countP_key_le_one Node.Addr T hA n.Addr)
  by_cases hmem : b.1 ∈ n.Slots
  · rw [if_pos (by simpa using hmem)]
    have hnb : n ∈ b.2 := by
      rw [sortBuckets_value hnd hb]
      exact List.mem_filter.mpr ⟨hn, by simpa using hmem⟩
    have hany : ∃ q ∈ provOfBucket b, decide (q.Addr = n.Addr) = true := by
      have : n.Addr ∈ (provOfBucket b).map Node.Addr := by
        rw [provOfBucket_addrs]
        exact List.mem_map_of_mem Node.Addr hnb
      rcases List.mem_map.mp this with ⟨q, hq, hqa⟩
      exact ⟨q, hq, by simpa using hqa⟩
    have hlen : ((provOfBucket b).filter (fun q => decide (q.Addr = n.Addr))).length = 1 := by
      rw [← List.countP_eq_length_filter]
      refine Nat.le_antisymm hcount ?_
      rcases hany with ⟨q, hq, hqa⟩
      have : 0 < (provOfBucket b).countP (fun q => decide (q.Addr = n.Addr)) := by
        rw [List.countP_pos_iff]
        exact ⟨q, hq, hqa⟩
      omega
    rcases List.length_eq_one.mp hlen with ⟨q, hq⟩
    rw [hq, List.flatMap_cons]
    have hqmem : q ∈ provOfBucket b := by
      have : q ∈ (provOfBucket b).filter (fun q => decide (q.Addr = n.Addr)) := by
        rw [hq]
        exact List.mem_singleton_self _
      exact (List.mem_filter.mp this).1
    rw [provOfBucket_slots hqmem]
    rfl
  · rw [if_neg (by simpa using hmem)]
    have hnil : (provOfBucket b).filter (fun q => decide (q.Addr = n.Addr)) = [] := by
      rw [List.filter_eq_nil_iff]
      intro q hq hqa
      apply hmem
      have hqa' : q.Addr = n.Addr := by simpa using hqa
      have hm : q.Addr ∈ b.2.map Node.Addr := by
        rw [← provOfBucket_addrs]
        exact List.mem_map_of_mem Node.Addr hq
      rcases List.mem_map.mp hm with ⟨o, ho, hoa⟩
      rw [sortBuckets_value hnd hb] at ho
      have hoT := (List.mem_filter.mp ho).1
      have hos := (List.mem_filter.mp ho).2
      have : o = n := addr_inj hA hoT hn (by rw [hoa, hqa'])
      subst this
      simpa using hos
    rw [hnil]
    rfl

/-- Decoded and merged, an address collects exactly the keys of the sorted
buckets whose range the node owns. -/
theorem slotsOfAddr_prov {T : Topo} (hA : (T.map Node.Addr).Nodup)
    (hnd : ∀ n' ∈ T, n'.Slots.Nodup) {n : Node} (hn : n ∈ T) :
    slotsOfAddr ((sortBuckets (buckets T)).flatMap provOfBucket) n.Addr =
      ((sortBuckets (buckets T)).map Prod.fst).filter (fun r => decide (r ∈ n.Slots)) := by
  unfold slotsOfAddr
  rw [List.filter_flatMap, List.flatMap_assoc]
  rw [flatMap_congr_mem (fun b hb => provOfBucket_filter_slots hA hnd hn hb)]
  exact flatMap_if_singleton Prod.fst (fun r => decide (r ∈ n.Slots)) _

/-- The owned bucket keys, in bucket order, are exactly the node's sorted
slot list. -/
theorem filter_keys_eq_sortSlots {T : Topo}
    {n : Node} (hn : n ∈ T) (hne : n.Slots ≠ [])
    (hpw : n.Slots.Pairwise (fun r s => r.1 ≠ s.1)) :
    ((sortBuckets (buckets T)).map Prod.fst).filter (fun r => decide (r ∈ n.Slots)) =
      sortSlots n.Slots := by
  have hnd1 : (((sortBuckets (buckets T)).map Prod.fst).filter
      (fun r => decide (r ∈ n.Slots))).Nodup :=
    List.Nodup.sublist (List.filter_sublist _) (sortBuckets_keys_nodup T)
  have hnd2 : (sortSlots n.Slots).Nodup :=
    ((sortSlots_perm n.Slots).nodup_iff).mpr (nodup_of_pairwise_start_ne hpw)
  have hsub1 : ∀ r ∈ ((sortBuckets (buckets T)).map Prod.fst).filter
      (fun r => decide (r ∈ n.Slots)), r ∈ n.Slots := by
    intro r hr
    simpa using (List.mem_filter.mp hr).2
  have hsub2 : ∀ r ∈ sortSlots n.Slots, r ∈ n.Slots := by
    intro r hr
    exact (sortSlots_perm n.Slots).mem_iff.mp hr
  refine @List.eq_of_perm_of_sorted _ slotLt _ _ _ ?_ ?_ ?_
  · refine (List.perm_ext_iff_of_nodup hnd1 hnd2).mpr ?_
    intro r
    constructor
    · intro hr
      exact (sortSlots_perm n.Slots).mem_iff.mpr (hsub1 r hr)
    · intro hr
      have hr' : r ∈ n.Slots := hsub2 r hr
      exact List.mem_filter.mpr
        ⟨(mem_sortBuckets_keys T r).mpr ⟨n, hn, hr'⟩, by simpa using hr'⟩
  · have hsymm : Symmetric (fun r s : Nat × Nat => r.1 ≠ s.1) := fun x y h he => h he.symm
    have h1 : ((sortBuckets (buckets T)).map Prod.fst).Pairwise (fun r s => r.1 ≤ s.1) :=
      List.pairwise_map.mpr (sortBuckets_sorted (buckets T))
    have h2 := h1.filter (fun r => decide (r ∈ n.Slots))
    have h3 := h2.and hnd1
    refine h3.imp_of_mem ?_
    intro a b ha hb hab
    have hne' : a.1 ≠ b.1 := hpw.forall hsymm (hsub1 a ha) (hsub1 b hb) hab.2
    exact Nat.lt_of_le_of_ne hab.1 hne'
  · have hsymm : Symmetric (fun r s : Nat × Nat => r.1 ≠ s.1) := fun x y h he => h he.symm
    have h1 := sortSlots_sorted n.Slots
    have h2 := h1.and hnd2
    refine h2.imp_of_mem ?_
    intro a b ha hb hab
    have hne' : a.1 ≠ b.1 := hpw.forall hsymm (hsub2 a ha) (hsub2 b hb) hab.2
    exact Nat.lt_of_le_of_ne hab.1 hne'

/-- The merged node of an address found in the provisional list: the first
occurrence's identity with all contributed slots. -/
theorem mergeNodes_find?_some {prov : List Node} {a : String} {p0 : Node}
    (hfind : prov.find? (fun q => q.Addr = a) = some p0) :
    (mergeNodes prov).find? (fun q => q.Addr = a) =
      some { p0 with Slots := slotsOfAddr prov a } := by
  have hchar : (mergeNodes prov).find? (fun q => q.Addr = a) =
      match prov.filter (fun q => decide (q.Addr = a)) with
      | [] => none
      | p :: ps => some { p with Slots := p.Slots ++ ps.flatMap (fun q => q.Slots) } :=
    find?_foldl_updateMerge prov [] a
  rw [find?_eq_head?_filter_pred] at hfind
  cases hflt : prov.filter (fun q => decide (q.Addr = a)) with
  | nil =>
    rw [hflt] at hfind
    cases hfind
  | cons p ps =>
    rw [hflt] at hfind hchar
    have hp : p = p0 := by injection hfind
    rw [hchar]
    dsimp only
    rw [hp]
    have hsa : slotsOfAddr prov a = p0.Slots ++ ps.flatMap (fun q => q.Slots) := by
      unfold slotsOfAddr
      rw [hflt, List.flatMap_cons, hp]
    rw [hsa]

/-- Every provisional address of the encoded topology is one of its
addresses. -/
theorem prov_addrs_sub {T : Topo} (hnd : ∀ n ∈ T, n.Slots.Nodup) {q : Node}
    (hq : q ∈ (sortBuckets (buckets T)).flatMap provOfBucket) :
    q.Addr ∈ T.map Node.Addr := by
  rcases List.mem_flatMap.mp hq with ⟨b, hb, hqb⟩
  have hm : q.Addr ∈ b.2.map Node.Addr := by
    rw [← provOfBucket_addrs]
    exact List.mem_map_of_mem Node.Addr hqb
  rcases List.mem_map.mp hm with ⟨o, ho, hoa⟩
  rw [sortBuckets_value hnd hb] at ho
  exact hoa ▸ List.mem_map_of_mem Node.Addr (List.mem_filter.mp ho).1

/-- Membership in a duplicate-free-address node list is `find?` by the
address. -/
theorem mem_iff_find?_addr {l : List Node} (hnd : (l.map Node.Addr).Nodup) (q : Node) :
    q ∈ l ↔ l.find? (fun x => x.Addr = q.Addr) = some q :=
  ⟨fun h => find?_of_mem_nodupKeys Node.Addr hnd h, fun h => List.mem_of_find?_eq_some h⟩

/-- Two duplicate-free-address node lists with the same `find?` results are
permutations of each other. -/
theorem perm_of_find?_addr_eq {l₁ l₂ : List Node}
    (h1 : (l₁.map Node.Addr).Nodup) (h2 : (l₂.map Node.Addr).Nodup)
    (hf : ∀ a, l₁.find? (fun x => x.Addr = a) = l₂.find? (fun x => x.Addr = a)) :
    l₁.Perm l₂ := by
  refine (List.perm_ext_iff_of_nodup (List.Nodup.of_map Node.Addr h1)
    (List.Nodup.of_map Node.Addr h2)).mpr ?_
  intro q
  rw [mem_iff_find?_addr h1, mem_iff_find?_addr h2, hf q.Addr]

/-- `find?` by address commutes with the slot sorting map. -/
theorem map_sortNodeSlots_find? (T : Topo) (a : String) :
    (T.map sortNodeSlots).find? (fun q => q.Addr = a) =
      (T.find? (fun q => q.Addr = a)).map sortNodeSlots := by
  rw [List.find?_map]
  rfl

/-- Sorting an already sorted slot list changes nothing. -/
theorem sortSlots_idem (l : List (Nat × Nat)) : sortSlots (sortSlots l) = sortSlots l :=
  (sortSlots_sorted l).insertionSort_eq

/-- Slot sorting of a node is idempotent. -/
theorem sortNodeSlots_idem (n : Node) : sortNodeSlots (sortNodeSlots n) = sortNodeSlots n := by
  unfold sortNodeSlots
  rw [sortSlots_idem]

/-- C1 (amended): for every Topology `T` with unique well-formed
`host:port` addresses, at least one range per node with pairwise distinct
representable starts, and per-range master-first consistency (the
topology's first owner of a node's minimal-start range is the node itself
when it is a master, and a node carrying its slave-of address and id
otherwise), decoding the wire produced by encoding `T` succeeds and yields
a Topology that is a permutation of `T` canonically sorted — the same
nodes, each with its address, id and slave-of fields intact and its ranges
sorted by start; only the order among comparator-tied nodes is beyond the
codec's control (Go's map iteration order feeds the sort, which is not a
strict weak order). -/
theorem C1_roundtrip_amended (T : Topo)
    (hA : (T.map Node.Addr).Nodup)
    (haddr : ∀ n ∈ T, n.Addr.data.count ':' = 1 ∧ ∀ c ∈ n.Addr.data, c ≠ '[' ∧ c ≠ ']')
    (hsl : ∀ n ∈ T, n.Slots ≠ [] ∧ n.Slots.Pairwise (fun r s => r.1 ≠ s.1) ∧
        ∀ r ∈ n.Slots, r.1 < 65536 ∧ r.2 < 65536)
    (hmaster : ∀ n ∈ T,
        (n.SlaveOfAddr = "" → n.SlaveOfID = "" ∧
          T.find? (fun m => decide (minRange n ∈ m.Slots)) = some n) ∧
        (n.SlaveOfAddr ≠ "" →
          ∃ m, T.find? (fun m' => decide (minRange n ∈ m'.Slots)) = some m ∧
            m.Addr = n.SlaveOfAddr ∧ m.ID = n.SlaveOfID ∧ m.Addr ≠ n.Addr)) :
    ∃ D, unmarshalTopo [] (encodeTopo T) = .ok D ∧ D.Perm (topoSort T) := by
  have hre : ∀ n ∈ T, joinSplit n.Addr := by
    intro n hn
    apply joinSplit_of_colon
    have hc := (haddr n hn).1
    have hpos : 0 < n.Addr.data.count ':' := by omega
    exact List.count_pos_iff.mp hpos
  have hsl2 : ∀ n' ∈ T, n'.Slots ≠ [] ∧ n'.Slots.Pairwise (fun r s => r.1 ≠ s.1) :=
    fun n hn => ⟨(hsl n hn).1, (hsl n hn).2.1⟩
  have hnd : ∀ n ∈ T, n.Slots.Nodup := fun n hn => nodup_of_pairwise_start_ne (hsl n hn).2.1
  have hbs_cond : ∀ b ∈ sortBuckets (buckets T),
      (∀ q ∈ b.2, joinSplit q.Addr) ∧ b.1.1 < 65536 ∧ b.1.2 < 65536 := by
    intro b hb
    have hval := sortBuckets_value hnd hb
    refine ⟨?_, ?_⟩
    · intro q hq
      rw [hval] at hq
      exact hre q (List.mem_filter.mp hq).1
    · have hkey : b.1 ∈ (sortBuckets (buckets T)).map Prod.fst := List.mem_map_of_mem _ hb
      rcases (mem_sortBuckets_keys T b.1).mp hkey with ⟨n, hn, hr⟩
      exact (hsl n hn).2.2 b.1 hr
  have hdec : decodeSlotSets (encodeTopo T) =
      .ok ((sortBuckets (buckets T)).flatMap provOfBucket) :=
    decodeSlotSets_map_encode _ hbs_cond
  have hmergefind : ∀ n ∈ T,
      (mergeNodes ((sortBuckets (buckets T)).flatMap provOfBucket)).find?
          (fun q => q.Addr = n.Addr) =
        some (sortNodeSlots n) := by
    intro n hn
    rcases prov_find?_addr hA hsl2 hn with ⟨m, hmfind, hmT, hmmem, hpfind⟩
    rw [mergeNodes_find?_some hpfind]
    have hslots : slotsOfAddr ((sortBuckets (buckets T)).flatMap provOfBucket) n.Addr =
        sortSlots n.Slots := by
      rw [slotsOfAddr_prov hA hnd hn,
        filter_keys_eq_sortSlots hn (hsl n hn).1 (hsl n hn).2.1]
    by_cases hsm : n.SlaveOfAddr = ""
    · have hm := (hmaster n hn).1 hsm
      have hmn : m = n := by
        rw [hmfind] at hm
        injection hm.2
      rw [if_pos hmn, if_pos hmn, hslots]
      rw [show sortNodeSlots n = { Addr := n.Addr
                                   ID := n.ID
                                   Slots := sortSlots n.Slots
                                   SlaveOfAddr := n.SlaveOfAddr
                                   SlaveOfID := n.SlaveOfID } from rfl]
      rw [hsm, hm.1]
    · rcases (hmaster n hn).2 hsm with ⟨m', hm'find, hm'a, hm'i, hm'ne⟩
      have hmm : m = m' := by
        rw [hmfind] at hm'find
        injection hm'find
      have hmn : m ≠ n := by
        intro hc
        apply hm'ne
        rw [← hmm, hc]
      rw [if_neg hmn, if_neg hmn, hslots]
      rw [show sortNodeSlots n = { Addr := n.Addr
                                   ID := n.ID
                                   Slots := sortSlots n.Slots
                                   SlaveOfAddr := n.SlaveOfAddr
                                   SlaveOfID := n.SlaveOfID } from rfl]
      rw [← hm'a, ← hm'i, ← hmm]
  have hmnd : ((mergeNodes ((sortBuckets (buckets T)).flatMap provOfBucket)).map
      Node.Addr).Nodup :=
    nodup_addrs_foldl_updateMerge _ [] (by simp)
  have hTnd' : ((T.map sortNodeSlots).map Node.Addr).Nodup := by
    rw [List.map_map]
    exact hA
  have hperm : (mergeNodes ((sortBuckets (buckets T)).flatMap provOfBucket)).Perm
      (T.map sortNodeSlots) := by
    refine perm_of_find?_addr_eq hmnd hTnd' ?_
    intro a
    by_cases hmem : a ∈ T.map Node.Addr
    · rcases List.mem_map.mp hmem with ⟨n, hn, rfl⟩
      rw [hmergefind n hn, map_sortNodeSlots_find? T n.Addr,
        find?_of_mem_nodupKeys Node.Addr hA hn]
      rfl
    · have h1 : (mergeNodes ((sortBuckets (buckets T)).flatMap provOfBucket)).find?
          (fun q => q.Addr = a) = none := by
        rw [List.find?_eq_none]
        intro q hq hqa
        apply hmem
        have hqa' : q.Addr = a := by simpa using hqa
        have hiff : q.Addr ∈ (mergeNodes ((sortBuckets (buckets T)).flatMap
            provOfBucket)).map Node.Addr ↔
            q.Addr ∈ ([] : List Node).map Node.Addr ∨
              q.Addr ∈ ((sortBuckets (buckets T)).flatMap provOfBucket).map Node.Addr :=
          mem_addrs_foldl_updateMerge _ [] q.Addr
        rcases hiff.mp (List.mem_map_of_mem Node.Addr hq) with h | h
        · simp at h
        · rcases List.mem_map.mp h with ⟨q', hq', hq'a⟩
          exact hqa' ▸ hq'a ▸ prov_addrs_sub hnd hq'
      have h2 : (T.map sortNodeSlots).find? (fun q => q.Addr = a) = none := by
        rw [map_sortNodeSlots_find?]
        rw [List.find?_eq_none.mpr ?_]
        · rfl
        · intro q hq hqa
          exact hmem ((by simpa using hqa : q.Addr = a) ▸ List.mem_map_of_mem Node.Addr hq)
      rw [h1, h2]
  refine ⟨topoSort ([] ++ mergeNodes ((sortBuckets (buckets T)).flatMap provOfBucket)),
    ?_, ?_⟩
  · unfold unmarshalTopo
    rw [hdec]
  · have h1 : (topoSort ([] ++ mergeNodes ((sortBuckets (buckets T)).flatMap
        provOfBucket))).Perm
        ((mergeNodes ((sortBuckets (buckets T)).flatMap provOfBucket)).map sortNodeSlots) :=
      List.perm_insertionSort _ _
    have h2 := hperm.map sortNodeSlots
    have h3 : (T.map sortNodeSlots).map sortNodeSlots = T.map sortNodeSlots := by
      rw [List.map_map]
      refine List.map_congr_left ?_
      intro n _
      exact sortNodeSlots_idem n
    have h4 : (topoSort T).Perm (T.map sortNodeSlots) := List.perm_insertionSort _ _
    exact (h1.trans (h3 ▸ h2)).trans h4.symm

/-- C1 counterexample: a Topology consisting of one replica node violates
the claim — its slave-of fields cannot survive the wire format, whose only
carrier of the relation is the position inside a slot-set entry, so the
node decodes back as a master. -/
theorem C1_counterexample :
    unmarshalTopo [] (encodeTopo [⟨"h:7000", "idr", [(3, 9)], "m:1", "idm"⟩]) =
        .ok [⟨"h:7000", "idr", [(3, 9)], "", ""⟩] ∧
      topoSort [⟨"h:7000", "idr", [(3, 9)], "", ""⟩] ≠
        topoSort [⟨"h:7000", "idr", [(3, 9)], "m:1", "idm"⟩] ∧
      ([⟨"h:7000", "idr", [(3, 9)], "m:1", "idm"⟩] : Topo).map Node.Addr =
        ["h:7000"] := by
  refine ⟨rfl, ?_, rfl⟩
  decide

/-- Witness for the amended C1 on a two-node master/replica Topology given
in unsorted order. -/
theorem C1_roundtrip_amended_witness :
    ∃ D, unmarshalTopo [] (encodeTopo
        [⟨"m:1", "idm", [(9, 12), (0, 6)], "", ""⟩, ⟨"r:2", "idr", [(0, 6)], "m:1", "idm"⟩]) =
          .ok D ∧
      D.Perm (topoSort
        [⟨"m:1", "idm", [(9, 12), (0, 6)], "", ""⟩, ⟨"r:2", "idr", [(0, 6)], "m:1", "idm"⟩]) :=
  C1_roundtrip_amended _ (by decide) (by decide) (by decide) (by decide)

end RadixCluster
